import Mathlib

/-!
# fbc: frame buffer colour map configuration

A shallow embedding of `calculate_cmap` from `fbc.c` and the properties of the
colour map it builds.

Conventions of the embedding.

* `unsigned long` is 64 bits wide and `int` 32 bits wide (LP64).  Unsigned
  arithmetic is done on `ℕ` with an explicit `% 2 ^ 64`; the conversion of an
  `unsigned long` to `int` keeps the low 32 bits in two's complement.
* The loop counter `int i` holds values up to `INT_MAX`; incrementing it past
  that bound, assigning through a `NULL` pointer and assigning outside an
  allocated block have no defined behaviour in C and end the call in
  `Outcome.undefined`.
* `malloc` returns `NULL` for a request above `PTRDIFF_MAX` bytes and a block
  of the requested size otherwise.
* Floating point follows IEEE 754 with round to nearest, ties to even, each
  operation evaluated in the format of its type: `temp / (float)(depth-1)` is
  a binary32 division of two binary32 operands, `pow` returns a binary64.  A
  value is `NaN`, an infinity, or a signed real `(a / b) ^ (1 / q)`; rounding
  to a format with `p` significant bits turns it into a multiple of a power of
  two.  The library function `pow` is taken to return the binary64 nearest to
  the exact power.  The exponent range of the formats is not modelled: for the
  operands of `calculate_cmap` a quotient never leaves the range of binary32, a
  power below the range of binary64 is rounded to 0 by `lround` either way, and
  a power above it is outside the range of `long` either way.  `lround` of a
  `NaN`, of an infinity or of a value outside the range of `long` is
  unspecified in C and modelled as `none`.
* `gamma` as returned by `strtof` is a rational number; the results `inf` and
  `nan` of `strtof` are outside the model.  The comparison `gamma < 0.001` is
  made exactly.
-/

namespace Fbc

/-! ## Model of the floating point values -/

/-- The value of a floating point expression: not-a-number, a signed infinity,
or the signed real `± (a / b) ^ (1 / q)` with `b, q > 0`.  A value rounded to a
floating point format has `q = 1` and is a multiple of a power of two. -/
inductive Val where
  | nan : Val
  | inf (neg : Bool) : Val
  | root (neg : Bool) (a b q : ℕ) : Val
deriving DecidableEq, Repr

/-- The constant `1.0`. -/
def Val.one : Val := Val.root false 1 1 1

/-- The constant `0.0`. -/
def Val.zero : Val := Val.root false 0 1 1

/-- Bitwise search for the integer `q`-th root: `iroot_aux q n k r` adds to `r`
the bits `2 ^ (k - 1)`, ..., `2 ^ 0` that keep its `q`-th power at most `n`. -/
def iroot_aux (q n : ℕ) : ℕ → ℕ → ℕ
  | 0, r => r
  | k + 1, r =>
    if (r + 2 ^ k) ^ q ≤ n then iroot_aux q n k (r + 2 ^ k) else iroot_aux q n k r

/-- The number of binary digits of `n`, computed with at most `fuel` halvings. -/
def bit_length : ℕ → ℕ → ℕ
  | 0, _ => 0
  | fuel + 1, n => if n = 0 then 0 else bit_length fuel (n / 2) + 1

/-- The greatest `r` with `r ^ q ≤ n`, for `q > 0`. -/
def iroot (q n : ℕ) : ℕ := iroot_aux q n (bit_length n n) 0

/-- The magnitude of `(a / b) ^ (1 / q)` rounded to the nearest integer, halves
rounded up: the greatest `m` with `(2 m - 1) ^ q ≤ 2 ^ q * a / b`. -/
def round_root (a b q : ℕ) : ℕ := (iroot q (2 ^ q * a / b) + 1) / 2

/-- The integer part of the binary logarithm of `a / b`, for `a, b > 0`. -/
def log2_floor (a b : ℕ) : ℤ :=
  if b * 2 ^ bit_length a a ≤ a * 2 ^ bit_length b b then
    (bit_length a a : ℤ) - (bit_length b b : ℤ)
  else (bit_length a a : ℤ) - (bit_length b b : ℤ) - 1

/-- Rounding to a binary format with `p` significant bits, to nearest, ties to
even.  For a magnitude `v = (a / b) ^ (1 / q) > 0` the exponent `e` is chosen
with `2 ^ (e + p - 1) ≤ v < 2 ^ (e + p)`, and the result is `m * 2 ^ e` with
`m` the integer nearest to `v / 2 ^ e`. -/
def round_fp (p : ℕ) (x : Val) : Val :=
  match x with
  | Val.nan => Val.nan
  | Val.inf neg => Val.inf neg
  | Val.root neg a b q =>
    if a = 0 then Val.root neg 0 1 1
    else
      let e : ℤ := log2_floor a b / (q : ℤ) - ((p : ℤ) - 1)
      let n : ℕ := if 0 ≤ e then a else a * 2 ^ (q * e.natAbs)
      let d : ℕ := if 0 ≤ e then b * 2 ^ (q * e.natAbs) else b
      let r : ℕ := round_root n d q
      let m : ℕ := if (2 * r - 1) ^ q * d = 2 ^ q * n ∧ r % 2 = 1 then r - 1 else r
      if 0 ≤ e then Val.root neg (m * 2 ^ e.natAbs) 1 1
      else Val.root neg m (2 ^ e.natAbs) 1

/-- Conversion to `float` (binary32, 24 significant bits). -/
def to_f32 (x : Val) : Val := round_fp 24 x

/-- Rounding of the result of a `double` operation (binary64, 53 significant bits). -/
def to_f64 (x : Val) : Val := round_fp 53 x

/-- The value of an integer. -/
def of_int (z : ℤ) : Val := Val.root (decide (z < 0)) z.natAbs 1 1

/-- The exact quotient `x / y`, with the special cases of IEEE 754: a `NaN`
operand, `inf / inf` and `0 / 0` give `NaN`, a division of a non-zero value by
zero gives an infinity. -/
def fquot (x y : Val) : Val :=
  match x, y with
  | Val.nan, _ => Val.nan
  | _, Val.nan => Val.nan
  | Val.inf _, Val.inf _ => Val.nan
  | Val.inf n, Val.root m _ _ _ => Val.inf (xor n m)
  | Val.root n _ _ _, Val.inf m => Val.root (xor n m) 0 1 1
  | Val.root n a b q, Val.root m c d r =>
    if c = 0 then (if a = 0 then Val.nan else Val.inf (xor n m))
    else Val.root (xor n m) (a ^ r * d ^ q) (b ^ r * c ^ q) (q * r)

/-- The expression `temp / (float)d` for an `int` numerator and an unsigned
denominator: both operands are converted to `float` and the quotient is
rounded to `float`. -/
def fdiv (temp : ℤ) (d : ℕ) : Val :=
  to_f32 (fquot (to_f32 (of_int temp)) (to_f32 (of_int (d : ℤ))))

/-- The exact power `x ^ y` for a rational exponent `y`, with the special cases
of the library function `pow`. -/
def pow_exact (x : Val) (y : ℚ) : Val :=
  if y = 0 then Val.one
  else
    let p : ℕ := y.num.natAbs
    let odd : Bool := decide (y.den = 1) && decide (p % 2 = 1)
    match x with
    | Val.nan => Val.nan
    | Val.inf neg => if 0 < y then Val.inf (neg && odd) else Val.zero
    | Val.root neg a b q =>
      if a = 0 then (if 0 < y then Val.zero else Val.inf false)
      else if neg && !decide (y.den = 1) then Val.nan
      else if 0 < y then Val.root (neg && odd) (a ^ p) (b ^ p) (q * y.den)
      else Val.root (neg && odd) (b ^ p) (a ^ p) (q * y.den)

/-- The library function `pow(x, y)`: the exact power rounded to `double`. -/
def pow (x : Val) (y : ℚ) : Val := to_f64 (pow_exact x y)

/-- The expression `x * (float)k` for a `double` `x` and a power of two `k`: the
product of a binary64 value and a power of two is a binary64 value, so no
rounding takes place. -/
def fscale (x : Val) (k : ℕ) : Val :=
  match x with
  | Val.nan => Val.nan
  | Val.inf neg => if k = 0 then Val.nan else Val.inf neg
  | Val.root neg a b q => Val.root neg (a * k ^ q) b q

/-- The library function `lround(x)`: nearest integer, halves away from zero.
The result is unspecified (`none`) for `NaN`, for the infinities and outside
the range of `long`. -/
def lround (x : Val) : Option ℤ :=
  match x with
  | Val.nan => none
  | Val.inf _ => none
  | Val.root neg a b q =>
    let m := round_root a b q
    if neg then (if m ≤ 2 ^ 63 then some (-(m : ℤ)) else none)
    else (if m < 2 ^ 63 then some (m : ℤ) else none)

/-! ## Integer conversions -/

/-- Conversion of an `unsigned long` to `int`: the low 32 bits, two's complement. -/
def to_int (n : ℕ) : ℤ :=
  if n % 2 ^ 32 < 2 ^ 31 then ((n % 2 ^ 32 : ℕ) : ℤ) else ((n % 2 ^ 32 : ℕ) : ℤ) - 2 ^ 32

/-- The value `i - r` of type `unsigned long`, for an `int i ≥ 0`. -/
def usub (i r : ℕ) : ℕ := (i % 2 ^ 64 + 2 ^ 64 - r % 2 ^ 64) % 2 ^ 64

/-- The statement `temp = (i - r) < 0 ? 0 : i - r;`.  The comparison is made in
`unsigned long`. -/
def temp_of (i r : ℕ) : ℤ :=
  if usub i r < 0 then 0 else to_int (usub i r)

/-- Conversion of a `long` to `__u16`: reduction modulo `2 ^ 16`. -/
def to_u16 (z : ℤ) : ℕ := (z % 65536).toNat

/-! ## The colour map and the program state -/

/-- The three colour channels. -/
inductive Channel where
  | red : Channel
  | green : Channel
  | blue : Channel
deriving DecidableEq, Repr

/-- The structure `struct fb_cmap` of `fb.h`.  A pointer field is `none` when it
is `NULL` and otherwise holds the cells of the block it points to; a cell is
`none` while its value is indeterminate. -/
structure fb_cmap where
  start : ℕ
  len : ℕ
  red : Option (List (Option ℕ))
  green : Option (List (Option ℕ))
  blue : Option (List (Option ℕ))
  transp : Option (List (Option ℕ))
deriving DecidableEq, Repr

/-- The part of the program state `calculate_cmap` works on: the colour map
behind the pointer argument, together with two records kept for the proofs, the
number of calls of `malloc` and the table cells assigned so far, in order. -/
structure State where
  cmap : fb_cmap
  mallocs : ℕ
  stores : List (Channel × ℕ)
deriving DecidableEq, Repr

/-- The command-line options `calculate_cmap` reads, already converted:
`opt_gamma` holds the result of `strtof`, the others the result of `strtoul`.
An option that was not given is `none` (a `NULL` string in the source). -/
structure Options where
  opt_gamma : Option ℚ
  opt_depth : Option ℕ
  opt_r : Option ℕ
  opt_g : Option ℕ
  opt_b : Option ℕ
deriving DecidableEq, Repr

/-- How a call ends: the process exits inside `die` after printing `msg`, the
function returns, or the call runs into an operation without defined behaviour.
The first two carry the state reached. -/
inductive Outcome where
  | exited (msg : String) (s : State) : Outcome
  | returned (s : State) : Outcome
  | undefined : Outcome
deriving DecidableEq, Repr

/-- The constant `DEFAULT_DEPTH`. -/
def DEFAULT_DEPTH : ℕ := 256

/-- The constant `INT_MAX`. -/
def INT_MAX : ℕ := 2 ^ 31 - 1

/-- The constant `PTRDIFF_MAX`. -/
def PTRDIFF_MAX : ℕ := 2 ^ 63 - 1

/-- The threshold `0.001` of the gamma check. -/
def gamma_min : ℚ := ⟨1, 1000, by decide, by decide⟩

/-- The function `die`: print the message and leave the process. -/
def die (msg : String) (s : State) : Outcome := Outcome.exited msg s

/-- A call `malloc(n * sizeof(__u16))`: `NULL` when the size, computed in
`unsigned long`, is above `PTRDIFF_MAX`, and otherwise a block of as many
16-bit cells as fit into the size, their contents indeterminate. -/
def malloc_u16 (n : ℕ) : Option (List (Option ℕ)) :=
  if n * 2 % 2 ^ 64 > PTRDIFF_MAX then none
  else some (List.replicate (n * 2 % 2 ^ 64 / 2) none)

/-- The assignment `p[i] = v` through a table pointer `p`: `none` when `p` is
`NULL` or the index is outside the block. -/
def assign (p : Option (List (Option ℕ))) (i : ℕ) (v : Option ℕ) :
    Option (List (Option ℕ)) :=
  match p with
  | none => none
  | some t => if i < t.length then some (t.set i v) else none

/-- The assignment `cmap->red[i] = v` (or green, or blue); `none` when it has no
defined behaviour. -/
def store (ch : Channel) (i : ℕ) (v : Option ℕ) (s : State) : Option State :=
  match ch with
  | Channel.red =>
    (assign s.cmap.red i v).map fun t =>
      { cmap := { s.cmap with red := some t }, mallocs := s.mallocs,
        stores := s.stores ++ [(ch, i)] }
  | Channel.green =>
    (assign s.cmap.green i v).map fun t =>
      { cmap := { s.cmap with green := some t }, mallocs := s.mallocs,
        stores := s.stores ++ [(ch, i)] }
  | Channel.blue =>
    (assign s.cmap.blue i v).map fun t =>
      { cmap := { s.cmap with blue := some t }, mallocs := s.mallocs,
        stores := s.stores ++ [(ch, i)] }

/-- The value of `lround(pow(temp / (float)(depth-1), gamma) * (float)(1<<16))`. -/
def scaled_of (depth : ℕ) (gamma : ℚ) (temp : ℤ) : Option ℤ :=
  lround (fscale (pow (fdiv temp (usub depth 1)) gamma) (1 <<< 16))

/-- The body of the loop of `calculate_cmap` at index `i`; `none` when one of
its assignments has no defined behaviour. -/
def loop_body (depth : ℕ) (gamma : ℚ) (r g b : ℕ) (i : ℕ) (s : State) : Option State :=
  let temp := temp_of i r
  match store Channel.red i ((scaled_of depth gamma temp).map to_u16) s with
  | none => none
  | some s =>
    let temp := temp_of i g
    match store Channel.green i ((scaled_of depth gamma temp).map to_u16) s with
    | none => none
    | some s =>
      let temp := temp_of i b
      store Channel.blue i ((scaled_of depth gamma temp).map to_u16) s

/-- The loop `for(i = 0; i < depth; i++) body`, started at `i` and run for at
most `fuel` rounds; `none` when the body has no defined behaviour or `i++`
overflows. -/
def for_loop {σ : Type} (depth : ℕ) (body : ℕ → σ → Option σ) : ℕ → ℕ → σ → Option σ
  | 0, _, s => some s
  | fuel + 1, i, s =>
    if i < depth then
      match body i s with
      | none => none
      | some s' => if INT_MAX < i + 1 then none else for_loop depth body fuel (i + 1) s'
    else some s

/-- The function `calculate_cmap`. -/
def calculate_cmap (o : Options) (s : State) : Outcome :=
  let gamma : ℚ := match o.opt_gamma with
    | some x => x
    | none => 0
  if o.opt_gamma.isNone || decide (gamma < gamma_min) then
    die "Must supply a valid gamma value\n" s
  else
    let depth : ℕ := match o.opt_depth with
      | some n => n
      | none => DEFAULT_DEPTH
    let r : ℕ := match o.opt_r with
      | some n => n
      | none => 0
    let g : ℕ := match o.opt_g with
      | some n => n
      | none => 0
    let b : ℕ := match o.opt_b with
      | some n => n
      | none => 0
    if decide (r > depth) || decide (g > depth) || decide (b > depth) then
      die "Colour offset too large\n" s
    else
      let s := { s with cmap := { s.cmap with start := 0 } }
      let s := { s with cmap := { s.cmap with len := depth % 2 ^ 32 } }
      let s := { s with cmap := { s.cmap with transp := none } }
      let s := { s with cmap := { s.cmap with red := malloc_u16 depth },
                        mallocs := s.mallocs + 1 }
      let s := { s with cmap := { s.cmap with green := malloc_u16 depth },
                        mallocs := s.mallocs + 1 }
      let s := { s with cmap := { s.cmap with blue := malloc_u16 depth },
                        mallocs := s.mallocs + 1 }
      match for_loop depth (loop_body depth gamma r g b) depth 0 s with
      | none => Outcome.undefined
      | some s' => Outcome.returned s'

/-! ## Derived notions used in the statements -/

/-- The value computed for index `i` of a channel with offset `off`, before it
is stored. -/
def scaled (depth : ℕ) (gamma : ℚ) (off i : ℕ) : Option ℤ :=
  scaled_of depth gamma (temp_of i off)

/-- The value stored at index `i` of a channel with offset `off`; `none` stands
for an unspecified value. -/
def entry (depth : ℕ) (gamma : ℚ) (off i : ℕ) : Option ℕ :=
  (scaled depth gamma off i).map to_u16

/-- The table of a channel with offset `off`. -/
def table (depth : ℕ) (gamma : ℚ) (off : ℕ) : List (Option ℕ) :=
  (List.range depth).map (entry depth gamma off)

/-- The cells assigned by the loop, in order. -/
def all_stores (depth : ℕ) : List (Channel × ℕ) :=
  (List.range depth).flatMap
    (fun i => [(Channel.red, i), (Channel.green, i), (Channel.blue, i)])

/-- A state before the call: an arbitrary colour map and empty records. -/
def init (c : fb_cmap) : State := { cmap := c, mallocs := 0, stores := [] }

/-- Some contents for the colour map before the call. -/
def cmap0 : fb_cmap :=
  { start := 7, len := 7, red := none, green := none, blue := none, transp := some [] }

/-- The table pointer of a channel. -/
def fb_cmap.chan (c : fb_cmap) : Channel → Option (List (Option ℕ))
  | Channel.red => c.red
  | Channel.green => c.green
  | Channel.blue => c.blue

/-- The offset of a channel, given the offsets `r`, `g`, `b`. -/
def offset_of (r g b : ℕ) : Channel → ℕ
  | Channel.red => r
  | Channel.green => g
  | Channel.blue => b

/-- The first failure of the specification: gamma is missing or below 0.001. -/
def invalid_gamma (o : Options) : Prop :=
  match o.opt_gamma with
  | none => True
  | some x => x < 1 / 1000

/-- The second failure of the specification: one of the offsets in force is
greater than the depth in force. -/
def offset_out_of_range (o : Options) : Prop :=
  o.opt_depth.getD DEFAULT_DEPTH < o.opt_r.getD 0 ∨
  o.opt_depth.getD DEFAULT_DEPTH < o.opt_g.getD 0 ∨
  o.opt_depth.getD DEFAULT_DEPTH < o.opt_b.getD 0

/-- The real `w` is the positive real `v` rounded to `p` significant bits, to
nearest, ties to even: `w = m * 2 ^ e` with `2 ^ (e + p - 1) ≤ v < 2 ^ (e + p)` and
`m` an integer nearest to `v / 2 ^ e`, even when two are equally near. -/
def is_rounding (p : ℕ) (v w : ℝ) : Prop :=
  ∃ (e : ℤ) (m : ℕ), w = (m : ℝ) * (2 : ℝ) ^ e ∧
    (2 : ℝ) ^ (e + (p : ℤ) - 1) ≤ v ∧ v < (2 : ℝ) ^ (e + (p : ℤ)) ∧
    |(m : ℝ) - v / (2 : ℝ) ^ e| ≤ 1 / 2 ∧
    (|(m : ℝ) - v / (2 : ℝ) ^ e| = 1 / 2 → Even m)

/-- The real `w` is the real `v ≥ 0` rounded to `p` significant bits: zero is
exact, a positive value is rounded to nearest, ties to even. -/
def rounds_to (p : ℕ) (v w : ℝ) : Prop :=
  (v = 0 ∧ w = 0) ∨ is_rounding p v w

/-- A table whose first `n` cells hold the values of `f` and whose remaining
cells, up to `depth`, are indeterminate. -/
def filled (depth : ℕ) (f : ℕ → Option ℕ) (n : ℕ) : List (Option ℕ) :=
  (List.range n).map f ++ List.replicate (depth - n) none

/-- The state after the first `n` rounds of the loop, started in `s`. -/
def after (depth : ℕ) (gamma : ℚ) (r g b : ℕ) (s : State) (n : ℕ) : State :=
  { cmap :=
      { start := s.cmap.start, len := s.cmap.len, transp := s.cmap.transp,
        red := some (filled depth (entry depth gamma r) n),
        green := some (filled depth (entry depth gamma g) n),
        blue := some (filled depth (entry depth gamma b) n) },
    mallocs := s.mallocs,
    stores := s.stores ++ all_stores n }

/-- The state `calculate_cmap` returns in, for the parameters in force. -/
def final (depth : ℕ) (gamma : ℚ) (r g b : ℕ) (s : State) : State :=
  { cmap :=
      { start := 0, len := depth % 2 ^ 32, transp := none,
        red := some (table depth gamma r),
        green := some (table depth gamma g),
        blue := some (table depth gamma b) },
    mallocs := s.mallocs + 3,
    stores := s.stores ++ all_stores depth }

/-- The determined value at index `i` of a table, if the table exists, has that
index, and the cell's value is determined. -/
def cell (t : Option (List (Option ℕ))) (i : ℕ) : Option ℕ :=
  match t with
  | none => none
  | some l => (l[i]?).join

/-! ## The integer root -/

theorem bit_length_spec : ∀ fuel n : ℕ, n ≤ fuel → n < 2 ^ bit_length fuel n
  | 0, n, h => by
    have : n = 0 := by omega
    subst this
    simp [bit_length]
  | fuel + 1, n, h => by
    unfold bit_length
    split
    · next h0 => subst h0; simp
    · next h0 =>
      have ih := bit_length_spec fuel (n / 2) (by omega)
      rw [pow_succ]
      omega

theorem iroot_aux_spec (q n : ℕ) : ∀ k r : ℕ, r ^ q ≤ n → n < (r + 2 ^ k) ^ q →
    iroot_aux q n k r ^ q ≤ n ∧ n < (iroot_aux q n k r + 1) ^ q
  | 0, r, h1, h2 => by simpa [iroot_aux] using And.intro h1 h2
  | k + 1, r, h1, h2 => by
    unfold iroot_aux
    split
    · next h =>
      refine iroot_aux_spec q n k (r + 2 ^ k) h ?_
      have : r + 2 ^ k + 2 ^ k = r + 2 ^ (k + 1) := by rw [pow_succ]; ring
      rw [this]
      exact h2
    · next h => exact iroot_aux_spec q n k r h1 (by omega)

theorem iroot_spec (q n : ℕ) (hq : 0 < q) :
    iroot q n ^ q ≤ n ∧ n < (iroot q n + 1) ^ q := by
  unfold iroot
  apply iroot_aux_spec
  · rw [zero_pow (by omega)]
    exact Nat.zero_le n
  · rw [zero_add]
    calc n < 2 ^ bit_length n n := bit_length_spec n n le_rfl
      _ = (2 ^ bit_length n n) ^ 1 := (pow_one _).symm
      _ ≤ (2 ^ bit_length n n) ^ q := Nat.pow_le_pow_right (by positivity) hq

theorem le_iroot_iff (q n m : ℕ) (hq : 0 < q) : m ≤ iroot q n ↔ m ^ q ≤ n := by
  obtain ⟨h1, h2⟩ := iroot_spec q n hq
  constructor
  · intro h
    exact le_trans (Nat.pow_le_pow_left h q) h1
  · intro h
    by_contra hc
    have h3 : iroot q n + 1 ≤ m := by omega
    have := Nat.pow_le_pow_left h3 q
    omega

/-! ## Rounding of a root agrees with rounding in the reals -/

theorem le_iroot_iff_real (a b q m : ℕ) (hb : 0 < b) (hq : 0 < q) :
    m ≤ iroot q (2 ^ q * a / b) ↔ (m : ℝ) ≤ 2 * ((a : ℝ) / b) ^ ((q : ℝ)⁻¹) := by
  have hb' : (0 : ℝ) < b := by exact_mod_cast hb
  have hx : (0 : ℝ) ≤ (a : ℝ) / b := by positivity
  have hy0 : 0 ≤ ((a : ℝ) / b) ^ ((q : ℝ)⁻¹) := Real.rpow_nonneg hx _
  have hyq : (((a : ℝ) / b) ^ ((q : ℝ)⁻¹)) ^ q = (a : ℝ) / b :=
    Real.rpow_inv_natCast_pow hx (by omega)
  have hpow : (2 * ((a : ℝ) / b) ^ ((q : ℝ)⁻¹)) ^ q = 2 ^ q * a / b := by
    rw [mul_pow, hyq]; ring
  rw [le_iroot_iff _ _ _ hq, Nat.le_div_iff_mul_le hb]
  have hcast : m ^ q * b ≤ 2 ^ q * a ↔ (m : ℝ) ^ q ≤ 2 ^ q * a / b := by
    rw [le_div_iff₀ hb']
    exact_mod_cast Iff.rfl
  rw [hcast, ← hpow]
  constructor
  · intro h
    exact le_of_pow_le_pow_left₀ (by omega) (by positivity) h
  · intro h
    exact pow_le_pow_left₀ (by positivity) h q

theorem round_root_eq (a b q : ℕ) (hb : 0 < b) (hq : 0 < q) :
    ((round_root a b q : ℕ) : ℤ) = round (((a : ℝ) / b) ^ ((q : ℝ)⁻¹)) := by
  have key := fun m => le_iroot_iff_real a b q m hb hq
  have hy0 : 0 ≤ ((a : ℝ) / b) ^ ((q : ℝ)⁻¹) := Real.rpow_nonneg (by positivity) _
  rw [round_eq, eq_comm, Int.floor_eq_iff]
  unfold round_root
  set R := iroot q (2 ^ q * a / b) with hR
  set y := ((a : ℝ) / b) ^ ((q : ℝ)⁻¹) with hy
  generalize hn : (R + 1) / 2 = n
  have hdiv : 2 * n ≤ R + 1 ∧ R < 2 * n + 1 := by omega
  have hcast : (((n : ℕ) : ℤ) : ℝ) = (n : ℝ) := by norm_cast
  rw [hcast]
  constructor
  · rcases Nat.eq_zero_or_pos n with h0 | hpos
    · rw [h0]; push_cast; linarith
    · have h1 : 2 * n - 1 ≤ R := by omega
      have h2 := (key _).1 h1
      have h3 : ((2 * n - 1 : ℕ) : ℝ) = 2 * (n : ℝ) - 1 := by
        rw [Nat.cast_sub (by omega)]; push_cast; ring
      rw [h3] at h2
      linarith
  · have h1 : ¬ (2 * n + 1 ≤ R) := by omega
    have h2 : ¬ (((2 * n + 1 : ℕ) : ℝ) ≤ 2 * y) := fun h => h1 ((key _).2 h)
    push_cast at h2
    linarith

/-! ## Binary digits and the binary logarithm -/

theorem bit_length_zero (fuel : ℕ) : bit_length fuel 0 = 0 := by
  cases fuel <;> simp [bit_length]

theorem bit_length_lower : ∀ fuel n : ℕ, n ≤ fuel → 0 < n → 2 ^ (bit_length fuel n - 1) ≤ n
  | 0, n, h, h0 => by omega
  | fuel + 1, n, h, h0 => by
    unfold bit_length
    rw [if_neg (by omega)]
    rcases Nat.eq_zero_or_pos (n / 2) with hz | hp
    · have h1 : n = 1 := by omega
      subst h1
      simp [bit_length_zero]
    · have ih := bit_length_lower fuel (n / 2) (by omega) hp
      have hb : 0 < bit_length fuel (n / 2) := by
        cases fuel with
        | zero => omega
        | succ f =>
          unfold bit_length
          rw [if_neg (by omega)]
          omega
      have e : bit_length fuel (n / 2) + 1 - 1 = (bit_length fuel (n / 2) - 1) + 1 := by omega
      rw [e, pow_succ]
      omega

theorem two_zpow_sub (s t : ℕ) : (2 : ℝ) ^ ((s : ℤ) - (t : ℤ)) = (2 : ℝ) ^ s / (2 : ℝ) ^ t := by
  rw [zpow_sub₀ (by norm_num : (2 : ℝ) ≠ 0), zpow_natCast, zpow_natCast]

theorem two_zpow_le_div_iff (a b s t : ℕ) (hb : 0 < b) :
    (2 : ℝ) ^ ((s : ℤ) - (t : ℤ)) ≤ (a : ℝ) / b ↔ b * 2 ^ s ≤ a * 2 ^ t := by
  have hb' : (0 : ℝ) < b := by exact_mod_cast hb
  have ht : (0 : ℝ) < (2 : ℝ) ^ t := by positivity
  rw [two_zpow_sub, div_le_div_iff₀ ht hb']
  constructor
  · intro h
    have h' : ((b * 2 ^ s : ℕ) : ℝ) ≤ ((a * 2 ^ t : ℕ) : ℝ) := by
      push_cast; linarith
    exact_mod_cast h'
  · intro h
    have h' : ((b * 2 ^ s : ℕ) : ℝ) ≤ ((a * 2 ^ t : ℕ) : ℝ) := by exact_mod_cast h
    push_cast at h'
    linarith

theorem div_lt_two_zpow_iff (a b s t : ℕ) (hb : 0 < b) :
    (a : ℝ) / b < (2 : ℝ) ^ ((s : ℤ) - (t : ℤ)) ↔ a * 2 ^ t < b * 2 ^ s := by
  have hb' : (0 : ℝ) < b := by exact_mod_cast hb
  have ht : (0 : ℝ) < (2 : ℝ) ^ t := by positivity
  rw [two_zpow_sub, div_lt_div_iff₀ hb' ht]
  constructor
  · intro h
    have h' : ((a * 2 ^ t : ℕ) : ℝ) < ((b * 2 ^ s : ℕ) : ℝ) := by
      push_cast; linarith
    exact_mod_cast h'
  · intro h
    have h' : ((a * 2 ^ t : ℕ) : ℝ) < ((b * 2 ^ s : ℕ) : ℝ) := by exact_mod_cast h
    push_cast at h'
    linarith

theorem log2_floor_spec (a b : ℕ) (ha : 0 < a) (hb : 0 < b) :
    (2 : ℝ) ^ (log2_floor a b) ≤ (a : ℝ) / b ∧ (a : ℝ) / b < (2 : ℝ) ^ (log2_floor a b + 1) := by
  have ha1 := bit_length_spec a a le_rfl
  have ha2 := bit_length_lower a a le_rfl ha
  have hb1 := bit_length_spec b b le_rfl
  have hb2 := bit_length_lower b b le_rfl hb
  unfold log2_floor
  generalize bit_length a a = la at ha1 ha2 ⊢
  generalize bit_length b b = lb at hb1 hb2 ⊢
  have hla : 0 < la := by
    rcases Nat.eq_zero_or_pos la with h | h
    · subst h; simp at ha1; omega
    · exact h
  have hlb : 0 < lb := by
    rcases Nat.eq_zero_or_pos lb with h | h
    · subst h; simp at hb1; omega
    · exact h
  have ea : 2 ^ la = 2 * 2 ^ (la - 1) := by
    rw [← pow_succ']; congr 1; omega
  have eb : 2 ^ lb = 2 * 2 ^ (lb - 1) := by
    rw [← pow_succ']; congr 1; omega
  split
  · next hc =>
    constructor
    · exact (two_zpow_le_div_iff a b la lb hb).2 hc
    · have e : (la : ℤ) - (lb : ℤ) + 1 = ((la + 1 : ℕ) : ℤ) - (lb : ℤ) := by push_cast; ring
      rw [e, div_lt_two_zpow_iff a b (la + 1) lb hb, pow_succ]
      calc a * 2 ^ lb < 2 ^ la * 2 ^ lb := Nat.mul_lt_mul_of_pos_right ha1 (by positivity)
        _ = 2 ^ la * (2 * 2 ^ (lb - 1)) := by rw [← eb]
        _ ≤ 2 ^ la * (2 * b) := Nat.mul_le_mul_left _ (Nat.mul_le_mul_left _ hb2)
        _ = b * (2 ^ la * 2) := by ring
  · next hc =>
    have hc' : a * 2 ^ lb < b * 2 ^ la := Nat.lt_of_not_le hc
    constructor
    · have e : (la : ℤ) - (lb : ℤ) - 1 = (la : ℤ) - ((lb + 1 : ℕ) : ℤ) := by push_cast; ring
      rw [e, two_zpow_le_div_iff a b la (lb + 1) hb, pow_succ]
      calc b * 2 ^ la ≤ 2 ^ lb * 2 ^ la := Nat.mul_le_mul_right _ (Nat.le_of_lt hb1)
        _ = 2 ^ lb * (2 * 2 ^ (la - 1)) := by rw [← ea]
        _ ≤ 2 ^ lb * (2 * a) := Nat.mul_le_mul_left _ (Nat.mul_le_mul_left _ ha2)
        _ = a * (2 ^ lb * 2) := by ring
    · have e : (la : ℤ) - (lb : ℤ) - 1 + 1 = (la : ℤ) - (lb : ℤ) := by ring
      rw [e]
      exact (div_lt_two_zpow_iff a b la lb hb).2 hc'

/-! ## Rounding to a binary format -/

theorem root_exponent (x v : ℝ) (q : ℕ) (L : ℤ) (hq : 0 < q) (hv : 0 ≤ v) (hvq : v ^ q = x)
    (h1 : (2 : ℝ) ^ L ≤ x) (h2 : x < (2 : ℝ) ^ (L + 1)) :
    (2 : ℝ) ^ (L / (q : ℤ)) ≤ v ∧ v < (2 : ℝ) ^ (L / (q : ℤ) + 1) := by
  have hq' : (0 : ℤ) < (q : ℤ) := by exact_mod_cast hq
  have hE1 : L / (q : ℤ) * (q : ℤ) ≤ L := Int.ediv_mul_le L (ne_of_gt hq')
  have hE2 : L < (L / (q : ℤ) + 1) * (q : ℤ) := Int.lt_ediv_add_one_mul_self L hq'
  have e1 : ((2 : ℝ) ^ (L / (q : ℤ))) ^ q = (2 : ℝ) ^ (L / (q : ℤ) * (q : ℤ)) := by
    rw [zpow_mul, zpow_natCast]
  have e2 : ((2 : ℝ) ^ (L / (q : ℤ) + 1)) ^ q = (2 : ℝ) ^ ((L / (q : ℤ) + 1) * (q : ℤ)) := by
    rw [zpow_mul, zpow_natCast]
  have hq0 : q ≠ 0 := by omega
  have hE3 : L + 1 ≤ (L / (q : ℤ) + 1) * (q : ℤ) := by omega
  constructor
  · refine le_of_pow_le_pow_left₀ hq0 hv ?_
    rw [e1, hvq]
    exact le_trans (zpow_le_zpow_right₀ (by norm_num) hE1) h1
  · refine lt_of_pow_lt_pow_left₀ q (by positivity) ?_
    rw [e2, hvq]
    exact lt_of_lt_of_le h2 (zpow_le_zpow_right₀ (by norm_num) hE3)

theorem scaled_fraction (a b q : ℕ) (e : ℤ) (hb : 0 < b) :
    0 < (if 0 ≤ e then b * 2 ^ (q * e.natAbs) else b) ∧
    (((if 0 ≤ e then a else a * 2 ^ (q * e.natAbs) : ℕ) : ℝ) /
        ((if 0 ≤ e then b * 2 ^ (q * e.natAbs) else b : ℕ) : ℝ))
      = ((a : ℝ) / b) / ((2 : ℝ) ^ e) ^ q := by
  have hb' : (0 : ℝ) < b := by exact_mod_cast hb
  by_cases he : 0 ≤ e
  · rw [if_pos he, if_pos he]
    refine ⟨by positivity, ?_⟩
    have hk : ((e.natAbs : ℕ) : ℤ) = e := Int.natAbs_of_nonneg he
    have e1 : ((2 : ℝ) ^ e) ^ q = (2 : ℝ) ^ (q * e.natAbs) := by
      rw [← hk, zpow_natCast, Int.natAbs_ofNat, ← pow_mul, mul_comm]
    rw [e1]
    push_cast
    rw [div_div]
  · rw [if_neg he, if_neg he]
    refine ⟨hb, ?_⟩
    have hk : ((e.natAbs : ℕ) : ℤ) = -e := by omega
    have e0 : e = -((e.natAbs : ℕ) : ℤ) := by omega
    have e1 : ((2 : ℝ) ^ e) ^ q = ((2 : ℝ) ^ (q * e.natAbs))⁻¹ := by
      rw [e0, zpow_neg, zpow_natCast, Int.natAbs_neg, Int.natAbs_ofNat, inv_pow, ← pow_mul,
        mul_comm]
    rw [e1]
    push_cast
    field_simp

theorem tie_iff (n d q r : ℕ) (u : ℝ) (hd : 0 < d) (hq : 0 < q) (hr : 1 ≤ r) (hu : 0 ≤ u)
    (huq : u ^ q = (n : ℝ) / d) :
    (2 * r - 1) ^ q * d = 2 ^ q * n ↔ u = (r : ℝ) - 1 / 2 := by
  have hd' : (0 : ℝ) < d := by exact_mod_cast hd
  have hc : ((2 * r - 1 : ℕ) : ℝ) = 2 * ((r : ℝ) - 1 / 2) := by
    rw [Nat.cast_sub (by omega)]; push_cast; ring
  have hr' : (1 : ℝ) ≤ (r : ℝ) := by exact_mod_cast hr
  have hnn : (0 : ℝ) ≤ (r : ℝ) - 1 / 2 := by linarith
  have key : (2 * r - 1) ^ q * d = 2 ^ q * n ↔ ((r : ℝ) - 1 / 2) ^ q = u ^ q := by
    rw [huq, eq_div_iff (ne_of_gt hd')]
    have h2 : ((2 : ℝ) ^ q) ≠ 0 := by positivity
    constructor
    · intro h
      have h' : (((2 * r - 1) ^ q * d : ℕ) : ℝ) = ((2 ^ q * n : ℕ) : ℝ) := by rw [h]
      push_cast at h'
      rw [hc, mul_pow] at h'
      have : (2 : ℝ) ^ q * (((r : ℝ) - 1 / 2) ^ q * d) = (2 : ℝ) ^ q * n := by linarith
      exact mul_left_cancel₀ h2 this
    · intro h
      have h' : (((2 * r - 1) ^ q * d : ℕ) : ℝ) = ((2 ^ q * n : ℕ) : ℝ) := by
        push_cast
        rw [hc, mul_pow, mul_assoc, h]
      exact_mod_cast h'
  rw [key, pow_left_inj₀ hnn hu (by omega)]
  exact eq_comm

theorem nearest_even (u : ℝ) (r : ℕ) (t : Prop) [Decidable t] (hr : 1 ≤ r)
    (hround : ((r : ℕ) : ℤ) = round u) (ht : t ↔ u = (r : ℝ) - 1 / 2) :
    |(((if t ∧ r % 2 = 1 then r - 1 else r : ℕ)) : ℝ) - u| ≤ 1 / 2 ∧
    (|(((if t ∧ r % 2 = 1 then r - 1 else r : ℕ)) : ℝ) - u| = 1 / 2 →
      Even (if t ∧ r % 2 = 1 then r - 1 else r)) := by
  have hfl : ((r : ℕ) : ℤ) = ⌊u + 1 / 2⌋ := by rw [hround, round_eq]
  have h1 : ((r : ℤ) : ℝ) ≤ u + 1 / 2 := by rw [hfl]; exact Int.floor_le _
  have h2 : u + 1 / 2 < ((r : ℤ) : ℝ) + 1 := by rw [hfl]; exact Int.lt_floor_add_one _
  have hc : ((r : ℤ) : ℝ) = (r : ℝ) := by norm_cast
  rw [hc] at h1 h2
  by_cases hT : t
  · have hu : u = (r : ℝ) - 1 / 2 := ht.1 hT
    by_cases hodd : r % 2 = 1
    · rw [if_pos ⟨hT, hodd⟩]
      have hc2 : ((r - 1 : ℕ) : ℝ) = (r : ℝ) - 1 := by
        rw [Nat.cast_sub hr]; simp
      rw [hc2, hu]
      have e : (r : ℝ) - 1 - ((r : ℝ) - 1 / 2) = -(1 / 2) := by ring
      rw [e, abs_neg, abs_of_pos (by norm_num : (0 : ℝ) < 1 / 2)]
      exact ⟨le_rfl, fun _ => by rw [Nat.even_iff]; omega⟩
    · rw [if_neg (fun h => hodd h.2), hu]
      have e : (r : ℝ) - ((r : ℝ) - 1 / 2) = 1 / 2 := by ring
      rw [e, abs_of_pos (by norm_num : (0 : ℝ) < 1 / 2)]
      exact ⟨le_rfl, fun _ => by rw [Nat.even_iff]; omega⟩
  · rw [if_neg (fun h => hT h.1)]
    have hne : u ≠ (r : ℝ) - 1 / 2 := fun h => hT (ht.2 h)
    have hlt : (r : ℝ) - 1 / 2 < u := lt_of_le_of_ne (by linarith) (Ne.symm hne)
    have habs : |(r : ℝ) - u| < 1 / 2 := by
      rw [abs_lt]; constructor <;> linarith
    exact ⟨le_of_lt habs, fun h => absurd h (ne_of_lt habs)⟩

theorem round_fp_spec (p : ℕ) (neg : Bool) (a b q : ℕ) (ha : 0 < a) (hb : 0 < b)
    (hq : 0 < q) (hp : 0 < p) :
    ∃ A B : ℕ, round_fp p (Val.root neg a b q) = Val.root neg A B 1 ∧ 0 < B ∧
      is_rounding p (((a : ℝ) / b) ^ ((q : ℝ)⁻¹)) ((A : ℝ) / B) := by
  have ha' : (0 : ℝ) < a := by exact_mod_cast ha
  have hb' : (0 : ℝ) < b := by exact_mod_cast hb
  have hx : (0 : ℝ) < (a : ℝ) / b := by positivity
  have hv0 : 0 < ((a : ℝ) / b) ^ ((q : ℝ)⁻¹) := Real.rpow_pos_of_pos hx _
  have hvq : (((a : ℝ) / b) ^ ((q : ℝ)⁻¹)) ^ q = (a : ℝ) / b :=
    Real.rpow_inv_natCast_pow (le_of_lt hx) (by omega)
  obtain ⟨hL1, hL2⟩ := log2_floor_spec a b ha hb
  obtain ⟨hE1, hE2⟩ := root_exponent _ _ q _ hq (le_of_lt hv0) hvq hL1 hL2
  generalize ((a : ℝ) / b) ^ ((q : ℝ)⁻¹) = v at hv0 hvq hE1 hE2 ⊢
  unfold round_fp
  simp only [if_neg (Nat.ne_of_gt ha)]
  generalize he : log2_floor a b / (q : ℤ) - ((p : ℤ) - 1) = e
  have hE : log2_floor a b / (q : ℤ) = e + (p : ℤ) - 1 := by omega
  rw [hE] at hE1
  have hE' : log2_floor a b / (q : ℤ) + 1 = e + (p : ℤ) := by omega
  rw [hE'] at hE2
  obtain ⟨hd, hfrac⟩ := scaled_fraction a b q e hb
  generalize hn : (if 0 ≤ e then a else a * 2 ^ (q * e.natAbs)) = n at hfrac ⊢
  generalize hdd : (if 0 ≤ e then b * 2 ^ (q * e.natAbs) else b) = d at hd hfrac ⊢
  have h2e : (0 : ℝ) < (2 : ℝ) ^ e := zpow_pos (by norm_num) e
  have hu0 : 0 ≤ v / (2 : ℝ) ^ e := le_of_lt (div_pos hv0 h2e)
  have huq : (v / (2 : ℝ) ^ e) ^ q = (n : ℝ) / d := by
    rw [div_pow, hvq, hfrac]
  have hroot : ((n : ℝ) / d) ^ ((q : ℝ)⁻¹) = v / (2 : ℝ) ^ e := by
    rw [← huq]
    exact Real.pow_rpow_inv_natCast hu0 (by omega)
  have hR := round_root_eq n d q hd hq
  rw [hroot] at hR
  have hu1 : (1 : ℝ) ≤ v / (2 : ℝ) ^ e := by
    rw [le_div_iff₀ h2e, one_mul]
    refine le_trans (zpow_le_zpow_right₀ (by norm_num) ?_) hE1
    omega
  have hR1 : 1 ≤ round_root n d q := by
    have h1 : (1 : ℤ) ≤ round (v / (2 : ℝ) ^ e) := by
      rw [round_eq]
      apply Int.le_floor.2
      push_cast
      linarith
    rw [← hR] at h1
    exact_mod_cast h1
  generalize round_root n d q = r at hR hR1 ⊢
  have htie := tie_iff n d q r _ hd hq hR1 hu0 huq
  obtain ⟨hn1, hn2⟩ := nearest_even _ r ((2 * r - 1) ^ q * d = 2 ^ q * n) hR1 hR htie
  generalize (if (2 * r - 1) ^ q * d = 2 ^ q * n ∧ r % 2 = 1 then r - 1 else r) = m
    at hn1 hn2 ⊢
  by_cases hpos : 0 ≤ e
  · rw [if_pos hpos]
    refine ⟨_, _, rfl, Nat.one_pos, e, m, ?_, hE1, hE2, hn1, hn2⟩
    have hk : ((e.natAbs : ℕ) : ℤ) = e := Int.natAbs_of_nonneg hpos
    rw [← hk, zpow_natCast, Int.natAbs_ofNat]
    push_cast
    ring
  · rw [if_neg hpos]
    refine ⟨_, _, rfl, by positivity, e, m, ?_, hE1, hE2, hn1, hn2⟩
    have e0 : e = -((e.natAbs : ℕ) : ℤ) := by omega
    rw [e0, zpow_neg, zpow_natCast, Int.natAbs_neg, Int.natAbs_ofNat]
    push_cast
    rw [div_eq_mul_inv]

theorem two_zpow_split (e : ℤ) (p : ℕ) :
    (2 : ℝ) ^ (e + (p : ℤ)) = (2 : ℝ) ^ e * (2 : ℝ) ^ p := by
  rw [zpow_add₀ (by norm_num : (2 : ℝ) ≠ 0), zpow_natCast]

theorem two_zpow_split_pred (e : ℤ) (p : ℕ) (hp : 0 < p) :
    (2 : ℝ) ^ (e + (p : ℤ) - 1) = (2 : ℝ) ^ e * (2 : ℝ) ^ (p - 1) := by
  have h : e + (p : ℤ) - 1 = e + ((p - 1 : ℕ) : ℤ) := by omega
  rw [h, two_zpow_split]

theorem is_rounding_mantissa (p : ℕ) (v : ℝ) (e : ℤ) (m : ℕ) (hp : 0 < p)
    (h1 : (2 : ℝ) ^ (e + (p : ℤ) - 1) ≤ v) (h2 : v < (2 : ℝ) ^ (e + (p : ℤ)))
    (h3 : |(m : ℝ) - v / (2 : ℝ) ^ e| ≤ 1 / 2) :
    2 ^ (p - 1) ≤ m ∧ m ≤ 2 ^ p := by
  have h2e : (0 : ℝ) < (2 : ℝ) ^ e := zpow_pos (by norm_num) e
  rw [two_zpow_split_pred e p hp] at h1
  rw [two_zpow_split] at h2
  have hu1 : (2 : ℝ) ^ (p - 1) ≤ v / (2 : ℝ) ^ e := by
    rw [le_div_iff₀ h2e]; linarith
  have hu2 : v / (2 : ℝ) ^ e < (2 : ℝ) ^ p := by
    rw [div_lt_iff₀ h2e]; linarith
  rw [abs_le] at h3
  constructor
  · by_contra hc
    have hc' : m + 1 ≤ 2 ^ (p - 1) := by omega
    have hc'' : ((m + 1 : ℕ) : ℝ) ≤ ((2 ^ (p - 1) : ℕ) : ℝ) := by exact_mod_cast hc'
    push_cast at hc''
    linarith [h3.1]
  · by_contra hc
    have hc' : 2 ^ p + 1 ≤ m := by omega
    have hc'' : ((2 ^ p + 1 : ℕ) : ℝ) ≤ (m : ℝ) := by exact_mod_cast hc'
    push_cast at hc''
    linarith [h3.2]

theorem is_rounding_pos (p : ℕ) (v w : ℝ) (hp : 0 < p) (h : is_rounding p v w) : 0 < w := by
  obtain ⟨e, m, hw, h1, h2, h3, _⟩ := h
  obtain ⟨hm, _⟩ := is_rounding_mantissa p v e m hp h1 h2 h3
  have hm0 : 0 < m := lt_of_lt_of_le (by positivity) hm
  have hm0' : (0 : ℝ) < m := by exact_mod_cast hm0
  rw [hw]
  exact mul_pos hm0' (zpow_pos (by norm_num) e)

theorem is_rounding_source_pos (p : ℕ) (v w : ℝ) (h : is_rounding p v w) : 0 < v := by
  obtain ⟨e, m, _, h1, _⟩ := h
  exact lt_of_lt_of_le (zpow_pos (by norm_num) _) h1

theorem is_rounding_err (p : ℕ) (v w : ℝ) (hp : 0 < p) (h : is_rounding p v w) :
    |w - v| ≤ v / (2 : ℝ) ^ p := by
  obtain ⟨e, m, hw, h1, _, h3, _⟩ := h
  have h2e : (0 : ℝ) < (2 : ℝ) ^ e := zpow_pos (by norm_num) e
  have h2p : (0 : ℝ) < (2 : ℝ) ^ p := by positivity
  rw [two_zpow_split_pred e p hp] at h1
  have e1 : w - v = (2 : ℝ) ^ e * ((m : ℝ) - v / (2 : ℝ) ^ e) := by
    rw [hw]; field_simp
  have e2 : (2 : ℝ) ^ p = 2 * (2 : ℝ) ^ (p - 1) := by
    rw [← pow_succ']; congr 1; omega
  rw [e1, abs_mul, abs_of_pos h2e, le_div_iff₀ h2p]
  calc (2 : ℝ) ^ e * |(m : ℝ) - v / (2 : ℝ) ^ e| * (2 : ℝ) ^ p
      ≤ (2 : ℝ) ^ e * (1 / 2) * (2 : ℝ) ^ p := by
        apply mul_le_mul_of_nonneg_right _ (le_of_lt h2p)
        exact mul_le_mul_of_nonneg_left h3 (le_of_lt h2e)
    _ = (2 : ℝ) ^ e * (2 : ℝ) ^ (p - 1) := by rw [e2]; ring
    _ ≤ v := h1

theorem is_rounding_mono (p : ℕ) (v1 w1 v2 w2 : ℝ) (hp : 0 < p)
    (h1 : is_rounding p v1 w1) (h2 : is_rounding p v2 w2) (hv : v1 ≤ v2) : w1 ≤ w2 := by
  obtain ⟨e1, m1, hw1, ha1, hb1, hc1, hd1⟩ := h1
  obtain ⟨e2, m2, hw2, ha2, hb2, hc2, hd2⟩ := h2
  obtain ⟨hm1lo, hm1hi⟩ := is_rounding_mantissa p v1 e1 m1 hp ha1 hb1 hc1
  obtain ⟨hm2lo, hm2hi⟩ := is_rounding_mantissa p v2 e2 m2 hp ha2 hb2 hc2
  have two1 : (1 : ℝ) ≤ 2 := by norm_num
  rcases lt_trichotomy e1 e2 with hlt | heq | hgt
  · rw [hw1, hw2]
    have hm1' : (m1 : ℝ) ≤ (2 : ℝ) ^ p := by exact_mod_cast hm1hi
    have hm2' : (2 : ℝ) ^ (p - 1) ≤ (m2 : ℝ) := by exact_mod_cast hm2lo
    have h2e1 : (0 : ℝ) < (2 : ℝ) ^ e1 := zpow_pos (by norm_num) e1
    have h2e2 : (0 : ℝ) < (2 : ℝ) ^ e2 := zpow_pos (by norm_num) e2
    calc (m1 : ℝ) * (2 : ℝ) ^ e1 ≤ (2 : ℝ) ^ p * (2 : ℝ) ^ e1 :=
          mul_le_mul_of_nonneg_right hm1' (le_of_lt h2e1)
      _ = (2 : ℝ) ^ (e1 + (p : ℤ)) := by rw [two_zpow_split]; ring
      _ ≤ (2 : ℝ) ^ (e2 + (p : ℤ) - 1) := zpow_le_zpow_right₀ two1 (by omega)
      _ = (2 : ℝ) ^ (p - 1) * (2 : ℝ) ^ e2 := by rw [two_zpow_split_pred e2 p hp]; ring
      _ ≤ (m2 : ℝ) * (2 : ℝ) ^ e2 := mul_le_mul_of_nonneg_right hm2' (le_of_lt h2e2)
  · subst heq
    rw [hw1, hw2]
    have h2e : (0 : ℝ) < (2 : ℝ) ^ e1 := zpow_pos (by norm_num) e1
    have hu : v1 / (2 : ℝ) ^ e1 ≤ v2 / (2 : ℝ) ^ e1 := div_le_div_of_nonneg_right hv (le_of_lt h2e)
    have hm : m1 ≤ m2 := by
      by_contra hc
      have hc' : m2 + 1 ≤ m1 := by omega
      have hc'' : ((m2 + 1 : ℕ) : ℝ) ≤ (m1 : ℝ) := by exact_mod_cast hc'
      push_cast at hc''
      have hx1 := hc1
      have hx2 := hc2
      rw [abs_le] at hx1 hx2
      have hu1 : v1 / (2 : ℝ) ^ e1 = (m1 : ℝ) - 1 / 2 := by linarith [hx1.2, hx2.1]
      have hu2 : v2 / (2 : ℝ) ^ e1 = (m2 : ℝ) + 1 / 2 := by linarith [hx1.2, hx2.1]
      have hm12 : (m1 : ℝ) = (m2 : ℝ) + 1 := by linarith [hx1.2, hx2.1]
      have hm12' : m1 = m2 + 1 := by exact_mod_cast hm12
      have t1 : |(m1 : ℝ) - v1 / (2 : ℝ) ^ e1| = 1 / 2 := by
        rw [hu1]
        have : (m1 : ℝ) - ((m1 : ℝ) - 1 / 2) = 1 / 2 := by ring
        rw [this, abs_of_pos (by norm_num : (0 : ℝ) < 1 / 2)]
      have t2 : |(m2 : ℝ) - v2 / (2 : ℝ) ^ e1| = 1 / 2 := by
        rw [hu2]
        have : (m2 : ℝ) - ((m2 : ℝ) + 1 / 2) = -(1 / 2) := by ring
        rw [this, abs_neg, abs_of_pos (by norm_num : (0 : ℝ) < 1 / 2)]
      have ev1 := hd1 t1
      have ev2 := hd2 t2
      rw [Nat.even_iff] at ev1 ev2
      omega
    have hm' : (m1 : ℝ) ≤ (m2 : ℝ) := by exact_mod_cast hm
    exact mul_le_mul_of_nonneg_right hm' (le_of_lt h2e)
  · exfalso
    have : (2 : ℝ) ^ (e2 + (p : ℤ)) ≤ (2 : ℝ) ^ (e1 + (p : ℤ) - 1) :=
      zpow_le_zpow_right₀ two1 (by omega)
    linarith

theorem is_rounding_one_one (p : ℕ) (hp : 0 < p) : is_rounding p 1 1 := by
  refine ⟨1 - (p : ℤ), 2 ^ (p - 1), ?_, ?_, ?_, ?_, ?_⟩
  · have h : (1 : ℤ) - (p : ℤ) = -((p - 1 : ℕ) : ℤ) := by omega
    rw [h, zpow_neg, zpow_natCast]
    push_cast
    rw [mul_inv_cancel₀ (by positivity)]
  · have h : (1 : ℤ) - (p : ℤ) + (p : ℤ) - 1 = 0 := by ring
    rw [h, zpow_zero]
  · have h : (1 : ℤ) - (p : ℤ) + (p : ℤ) = 1 := by ring
    rw [h, zpow_one]
    norm_num
  · have h : (1 : ℤ) - (p : ℤ) = -((p - 1 : ℕ) : ℤ) := by omega
    rw [h, zpow_neg, zpow_natCast]
    push_cast
    rw [one_div, inv_inv, sub_self, abs_zero]
    norm_num
  · intro h0
    exfalso
    have h : (1 : ℤ) - (p : ℤ) = -((p - 1 : ℕ) : ℤ) := by omega
    rw [h, zpow_neg, zpow_natCast] at h0
    push_cast at h0
    rw [one_div, inv_inv, sub_self, abs_zero] at h0
    norm_num at h0

theorem is_rounding_one (p : ℕ) (w : ℝ) (hp : 0 < p) (h : is_rounding p 1 w) : w = 1 :=
  le_antisymm (is_rounding_mono p 1 w 1 1 hp h (is_rounding_one_one p hp) le_rfl)
    (is_rounding_mono p 1 1 1 w hp (is_rounding_one_one p hp) h le_rfl)

/-! ## The integer part of the loop body -/

theorem usub_one (depth : ℕ) (h1 : 1 ≤ depth) (h2 : depth < 2 ^ 64) :
    usub depth 1 = depth - 1 := by
  unfold usub
  omega

theorem temp_of_eq (i r : ℕ) (hi : i < 2 ^ 31) (hr : r ≤ 2 ^ 31) :
    temp_of i r = (i : ℤ) - r := by
  unfold temp_of to_int usub
  rw [if_neg (Nat.not_lt_zero _)]
  split <;> omega

/-! ## The floating point operations of the loop body -/

theorem round_fp_rational (p : ℕ) (neg : Bool) (a b : ℕ) (ha : 0 < a) (hb : 0 < b)
    (hp : 0 < p) :
    ∃ A B : ℕ, round_fp p (Val.root neg a b 1) = Val.root neg A B 1 ∧ 0 < A ∧ 0 < B ∧
      is_rounding p ((a : ℝ) / b) ((A : ℝ) / B) := by
  obtain ⟨A, B, h1, hB, h2⟩ := round_fp_spec p neg a b 1 ha hb Nat.one_pos hp
  simp only [Nat.cast_one, inv_one, Real.rpow_one] at h2
  have hpos := is_rounding_pos p _ _ hp h2
  have hB' : (0 : ℝ) < B := by exact_mod_cast hB
  have hA : 0 < A := by
    rcases Nat.eq_zero_or_pos A with h0 | h0
    · subst h0; simp at hpos
    · exact h0
  exact ⟨A, B, h1, hA, hB, h2⟩

theorem to_f32_of_int (z : ℤ) (hz : z ≠ 0) :
    ∃ A B : ℕ, to_f32 (of_int z) = Val.root (decide (z < 0)) A B 1 ∧ 0 < A ∧ 0 < B ∧
      is_rounding 24 ((z.natAbs : ℕ) : ℝ) ((A : ℝ) / B) := by
  have hpos : 0 < z.natAbs := Int.natAbs_pos.2 hz
  obtain ⟨A, B, h1, hA, hB, h2⟩ :=
    round_fp_rational 24 (decide (z < 0)) z.natAbs 1 hpos Nat.one_pos (by norm_num)
  simp only [Nat.cast_one, div_one] at h2
  exact ⟨A, B, h1, hA, hB, h2⟩

theorem log2_floor_self (n : ℕ) : log2_floor n n = 0 := by
  unfold log2_floor
  rw [if_pos le_rfl]
  omega

theorem to_f32_same (neg : Bool) (n : ℕ) (hn : 0 < n) :
    to_f32 (Val.root neg n n 1) = Val.root neg 8388608 8388608 1 := by
  have hq : 2 ^ 1 * (n * 2 ^ (1 * 23)) / n = 16777216 := by
    have e : 2 ^ 1 * (n * 2 ^ (1 * 23)) = n * 16777216 := by ring
    rw [e, Nat.mul_div_cancel_left _ hn]
  have hr : round_root (n * 2 ^ (1 * 23)) n 1 = 8388608 := by
    unfold round_root
    rw [hq]
    decide
  have ht : ¬ ((2 * 8388608 - 1) ^ 1 * n = 2 ^ 1 * (n * 2 ^ (1 * 23)) ∧ 8388608 % 2 = 1) := by
    intro h
    omega
  have he : (0 : ℤ) / ((1 : ℕ) : ℤ) - (((24 : ℕ) : ℤ) - 1) = -23 := by norm_num
  have hneg : ¬ ((0 : ℤ) ≤ -23) := by norm_num
  have habs : (-23 : ℤ).natAbs = 23 := by decide
  unfold to_f32 round_fp
  simp only [if_neg (Nat.ne_of_gt hn), log2_floor_self, he, if_neg hneg, habs, hr, if_neg ht]
  norm_num

theorem fdiv_spec (temp : ℤ) (d : ℕ) (ht : temp ≠ 0) (hd : 0 < d) :
    ∃ (A B : ℕ) (fa fb : ℝ), fdiv temp d = Val.root (decide (temp < 0)) A B 1 ∧
      0 < A ∧ 0 < B ∧
      is_rounding 24 ((temp.natAbs : ℕ) : ℝ) fa ∧ is_rounding 24 (d : ℝ) fb ∧
      is_rounding 24 (fa / fb) ((A : ℝ) / B) := by
  obtain ⟨A1, B1, e1, hA1, hB1, r1⟩ := to_f32_of_int temp ht
  have hd' : (d : ℤ) ≠ 0 := by omega
  obtain ⟨A2, B2, e2, hA2, hB2, r2⟩ := to_f32_of_int (d : ℤ) hd'
  have hdn : ¬ ((d : ℤ) < 0) := by omega
  rw [decide_eq_false hdn] at e2
  rw [Int.natAbs_ofNat] at r2
  obtain ⟨A, B, e3, hA, hB, r3⟩ := round_fp_rational 24 (decide (temp < 0)) (A1 * B2) (B1 * A2)
    (Nat.mul_pos hA1 hB2) (Nat.mul_pos hB1 hA2) (by norm_num)
  refine ⟨A, B, (A1 : ℝ) / B1, (A2 : ℝ) / B2, ?_, hA, hB, r1, r2, ?_⟩
  · unfold fdiv
    rw [e1, e2]
    simp only [fquot, if_neg (Nat.ne_of_gt hA2), pow_one, mul_one, Bool.xor_false]
    exact e3
  · have hA2' : (0 : ℝ) < A2 := by exact_mod_cast hA2
    have hB1' : (0 : ℝ) < B1 := by exact_mod_cast hB1
    have hB2' : (0 : ℝ) < B2 := by exact_mod_cast hB2
    have e : (A1 : ℝ) / B1 / ((A2 : ℝ) / B2) = ((A1 * B2 : ℕ) : ℝ) / ((B1 * A2 : ℕ) : ℝ) := by
      push_cast
      field_simp
    rw [e]
    exact r3

theorem fdiv_zero_num (d : ℕ) (hd : 0 < d) : fdiv 0 d = Val.zero := by
  have hd' : (d : ℤ) ≠ 0 := by omega
  obtain ⟨A2, B2, e2, hA2, hB2, _⟩ := to_f32_of_int (d : ℤ) hd'
  have e1 : to_f32 (of_int 0) = Val.root false 0 1 1 := by decide
  unfold fdiv
  rw [e1, e2]
  simp only [fquot, if_neg (Nat.ne_of_gt hA2)]
  simp [to_f32, round_fp, Val.zero]

theorem root_pow_real (a b : ℕ) (γ : ℚ) (hγ : 0 < γ) (hb : 0 < b) :
    (((a ^ γ.num.natAbs : ℕ) : ℝ) / ((b ^ γ.num.natAbs : ℕ) : ℝ)) ^ ((γ.den : ℝ)⁻¹)
      = ((a : ℝ) / b) ^ (γ : ℝ) := by
  have hb' : (0 : ℝ) < b := by exact_mod_cast hb
  have hx : (0 : ℝ) ≤ (a : ℝ) / b := by positivity
  have hnum : ((γ.num.natAbs : ℕ) : ℝ) = (γ.num : ℝ) := by
    have h0 : 0 ≤ γ.num := le_of_lt (Rat.num_pos.2 hγ)
    have h1 : ((γ.num.natAbs : ℕ) : ℤ) = γ.num := Int.natAbs_of_nonneg h0
    have h2 : (((γ.num.natAbs : ℕ) : ℤ) : ℝ) = (γ.num : ℝ) := by rw [h1]
    rw [← h2, Int.cast_natCast]
  have hcast : (γ : ℝ) = (γ.num.natAbs : ℝ) * (γ.den : ℝ)⁻¹ := by
    rw [hnum, ← div_eq_mul_inv]
    exact Rat.cast_def γ
  have e1 : (((a ^ γ.num.natAbs : ℕ) : ℝ) / ((b ^ γ.num.natAbs : ℕ) : ℝ))
      = ((a : ℝ) / b) ^ γ.num.natAbs := by
    push_cast
    rw [div_pow]
  rw [e1, hcast, Real.rpow_mul hx, Real.rpow_natCast]

theorem pow_spec (A B : ℕ) (γ : ℚ) (hγ : 0 < γ) (hA : 0 < A) (hB : 0 < B) :
    ∃ A' B' : ℕ, pow (Val.root false A B 1) γ = Val.root false A' B' 1 ∧ 0 < A' ∧ 0 < B' ∧
      is_rounding 53 (((A : ℝ) / B) ^ (γ : ℝ)) ((A' : ℝ) / B') := by
  obtain ⟨A', B', e, hB', r⟩ := round_fp_spec 53 false (A ^ γ.num.natAbs) (B ^ γ.num.natAbs)
    γ.den (by positivity) (by positivity) γ.den_pos (by norm_num)
  rw [root_pow_real A B γ hγ hB] at r
  have hpos := is_rounding_pos 53 _ _ (by norm_num) r
  have hA' : 0 < A' := by
    rcases Nat.eq_zero_or_pos A' with h0 | h0
    · subst h0; simp at hpos
    · exact h0
  refine ⟨A', B', ?_, hA', hB', r⟩
  have hne : γ ≠ 0 := ne_of_gt hγ
  unfold pow pow_exact
  simp only [if_neg hne, if_neg (Nat.ne_of_gt hA), Bool.false_and, if_pos hγ, one_mul]
  exact e

theorem pow_zero_base (γ : ℚ) (hγ : 0 < γ) : pow Val.zero γ = Val.zero := by
  have hne : γ ≠ 0 := ne_of_gt hγ
  simp [pow, pow_exact, Val.zero, hne, hγ, to_f64, round_fp]

theorem lround_fscale (A B : ℕ) (hB : 0 < B)
    (hlt : round ((A : ℝ) / B * 65536) < 2 ^ 63) :
    lround (fscale (Val.root false A B 1) (1 <<< 16))
      = some (round ((A : ℝ) / B * 65536)) := by
  have h := round_root_eq (A * 65536) B 1 hB Nat.one_pos
  have e : ((((A * 65536 : ℕ) : ℝ)) / B) ^ (((1 : ℕ) : ℝ)⁻¹) = (A : ℝ) / B * 65536 := by
    rw [Nat.cast_one, inv_one, Real.rpow_one]
    push_cast
    ring
  rw [e] at h
  rw [← h] at hlt ⊢
  have hlt' : round_root (A * 65536) B 1 < 9223372036854775808 := by
    have : ((round_root (A * 65536) B 1 : ℕ) : ℤ) < 9223372036854775808 := by
      simpa using hlt
    exact_mod_cast this
  simp [fscale, lround, hlt']

theorem rounds_to_nonneg (p : ℕ) (v w : ℝ) (hp : 0 < p) (h : rounds_to p v w) : 0 ≤ w := by
  rcases h with ⟨_, h0⟩ | h
  · rw [h0]
  · exact le_of_lt (is_rounding_pos p v w hp h)

theorem rounds_to_mono (p : ℕ) (v1 w1 v2 w2 : ℝ) (hp : 0 < p)
    (h1 : rounds_to p v1 w1) (h2 : rounds_to p v2 w2) (hv : v1 ≤ v2) : w1 ≤ w2 := by
  rcases h1 with ⟨_, hw1⟩ | h1
  · rw [hw1]
    exact rounds_to_nonneg p v2 w2 hp h2
  · rcases h2 with ⟨hv2, _⟩ | h2
    · have := is_rounding_source_pos p v1 w1 h1
      linarith
    · exact is_rounding_mono p v1 w1 v2 w2 hp h1 h2 hv

theorem rounds_to_unique (p : ℕ) (v w1 w2 : ℝ) (hp : 0 < p)
    (h1 : rounds_to p v w1) (h2 : rounds_to p v w2) : w1 = w2 :=
  le_antisymm (rounds_to_mono p v w1 v w2 hp h1 h2 le_rfl)
    (rounds_to_mono p v w2 v w1 hp h2 h1 le_rfl)

theorem rounds_to_le_one (p : ℕ) (v w : ℝ) (hp : 0 < p) (h : rounds_to p v w) (hv : v ≤ 1) :
    w ≤ 1 :=
  rounds_to_mono p v w 1 1 hp h (Or.inr (is_rounding_one_one p hp)) hv

theorem rounds_to_one (p : ℕ) (w : ℝ) (hp : 0 < p) (h : rounds_to p 1 w) : w = 1 :=
  rounds_to_unique p 1 w 1 hp h (Or.inr (is_rounding_one_one p hp))

/-! ## The value computed at or above the offset -/

theorem scaled_of_spec (depth : ℕ) (γ : ℚ) (a : ℕ) (hγ : 0 < γ) (h2 : 2 ≤ depth)
    (hd : depth < 2 ^ 64) (ha : a ≤ depth - 1) :
    ∃ fa fb q d : ℝ, rounds_to 24 (a : ℝ) fa ∧ rounds_to 24 ((depth : ℝ) - 1) fb ∧
      rounds_to 24 (fa / fb) q ∧ rounds_to 53 (q ^ (γ : ℝ)) d ∧
      fa ≤ fb ∧ 0 < fb ∧ 0 ≤ q ∧ q ≤ 1 ∧ 0 ≤ d ∧ d ≤ 1 ∧
      scaled_of depth γ (a : ℤ) = some (round (d * 65536)) := by
  have hb : 0 < depth - 1 := by omega
  have hbr : ((depth - 1 : ℕ) : ℝ) = (depth : ℝ) - 1 := by
    rw [Nat.cast_sub (by omega)]; simp
  have hγ0 : (0 : ℝ) ≤ (γ : ℝ) := by exact_mod_cast le_of_lt hγ
  have hγne : (γ : ℝ) ≠ 0 := by exact_mod_cast (ne_of_gt hγ)
  have h24 : 0 < 24 := by norm_num
  have h53 : 0 < 53 := by norm_num
  unfold scaled_of
  rw [usub_one depth (by omega) hd]
  rcases Nat.eq_zero_or_pos a with h0 | hpos
  · subst h0
    have hd' : ((depth - 1 : ℕ) : ℤ) ≠ 0 := by omega
    obtain ⟨A2, B2, _, _, _, r2⟩ := to_f32_of_int ((depth - 1 : ℕ) : ℤ) hd'
    rw [Int.natAbs_ofNat, hbr] at r2
    have hfb := is_rounding_pos 24 _ _ h24 r2
    refine ⟨0, (A2 : ℝ) / B2, 0, 0, Or.inl ⟨by simp, rfl⟩, Or.inr r2, Or.inl ⟨by simp, rfl⟩,
      Or.inl ⟨Real.zero_rpow hγne, rfl⟩, le_of_lt hfb, hfb, le_rfl, by norm_num, le_rfl,
      by norm_num, ?_⟩
    rw [Nat.cast_zero, fdiv_zero_num _ hb, pow_zero_base γ hγ]
    simp only [zero_mul, round_zero]
    decide
  · have hne : ((a : ℕ) : ℤ) ≠ 0 := by omega
    obtain ⟨A, B, fa, fb, e1, hA, hB, r1, r2, r3⟩ := fdiv_spec (a : ℤ) (depth - 1) hne hb
    have hnn : ¬ (((a : ℕ) : ℤ) < 0) := by omega
    rw [decide_eq_false hnn] at e1
    rw [Int.natAbs_ofNat] at r1
    rw [hbr] at r2
    obtain ⟨A', B', e2, hA', hB', r4⟩ := pow_spec A B γ hγ hA hB
    have hfa := is_rounding_pos 24 _ _ h24 r1
    have hfb := is_rounding_pos 24 _ _ h24 r2
    have hab : fa ≤ fb := by
      apply is_rounding_mono 24 _ _ _ _ h24 r1 r2
      rw [← hbr]
      exact_mod_cast ha
    have hq0 := is_rounding_pos 24 _ _ h24 r3
    have hq1 : (A : ℝ) / B ≤ 1 :=
      rounds_to_le_one 24 _ _ h24 (Or.inr r3) ((div_le_one hfb).2 hab)
    have hd0 := is_rounding_pos 53 _ _ h53 r4
    have hd1 : (A' : ℝ) / B' ≤ 1 :=
      rounds_to_le_one 53 _ _ h53 (Or.inr r4) (Real.rpow_le_one (le_of_lt hq0) hq1 hγ0)
    refine ⟨fa, fb, (A : ℝ) / B, (A' : ℝ) / B', Or.inr r1, Or.inr r2, Or.inr r3, Or.inr r4,
      hab, hfb, le_of_lt hq0, hq1, le_of_lt hd0, hd1, ?_⟩
    rw [e1, e2]
    apply lround_fscale A' B' hB'
    have : round ((A' : ℝ) / B' * 65536) ≤ 65536 := by
      rw [round_eq]
      have : ⌊(A' : ℝ) / B' * 65536 + 1 / 2⌋ < 65537 := by
        apply Int.floor_lt.2
        push_cast
        linarith
      omega
    omega

/-! ## The loop -/

theorem filled_set (depth : ℕ) (f : ℕ → Option ℕ) (n : ℕ) (h : n < depth) :
    (filled depth f n).set n (f n) = filled depth f (n + 1) := by
  unfold filled
  rw [List.set_append_right _ _ (by simp)]
  have h1 : depth - n = (depth - (n + 1)) + 1 := by omega
  rw [h1, List.replicate_succ]
  simp [List.range_succ]

theorem filled_length (depth : ℕ) (f : ℕ → Option ℕ) (n : ℕ) (h : n ≤ depth) :
    (filled depth f n).length = depth := by
  simp [filled]
  omega

theorem malloc_u16_eq (depth : ℕ) (f : ℕ → Option ℕ) (h : depth < 2 ^ 31) :
    malloc_u16 depth = some (filled depth f 0) := by
  unfold malloc_u16 filled PTRDIFF_MAX
  have h1 : depth * 2 % 2 ^ 64 = depth * 2 := by omega
  have h2 : ¬ (depth * 2 > 2 ^ 63 - 1) := by omega
  rw [h1, if_neg h2]
  have h3 : depth * 2 / 2 = depth := by omega
  rw [h3]
  simp

theorem filled_full (depth : ℕ) (gamma : ℚ) (off : ℕ) :
    filled depth (entry depth gamma off) depth = table depth gamma off := by
  simp [filled, table]

theorem assign_filled (depth : ℕ) (f : ℕ → Option ℕ) (n : ℕ) (h : n < depth) :
    assign (some (filled depth f n)) n (f n) = some (filled depth f (n + 1)) := by
  unfold assign
  simp only []
  rw [filled_length depth f n (by omega), if_pos h, filled_set depth f n h]

theorem all_stores_succ (n : ℕ) :
    all_stores (n + 1)
      = all_stores n ++ [(Channel.red, n), (Channel.green, n), (Channel.blue, n)] := by
  simp [all_stores, List.range_succ]

theorem loop_body_after (depth : ℕ) (gamma : ℚ) (r g b : ℕ) (s : State) (n : ℕ)
    (h : n < depth) :
    loop_body depth gamma r g b n (after depth gamma r g b s n)
      = some (after depth gamma r g b s (n + 1)) := by
  have hr := assign_filled depth (entry depth gamma r) n h
  have hg := assign_filled depth (entry depth gamma g) n h
  have hb := assign_filled depth (entry depth gamma b) n h
  simp only [entry, scaled] at hr hg hb
  simp only [loop_body, store, after, hr, hg, hb, Option.map_some', all_stores_succ, entry,
    scaled]
  simp

theorem for_loop_after (depth : ℕ) (gamma : ℚ) (r g b : ℕ) (s : State) (hmax : depth < 2 ^ 31) :
    ∀ fuel i : ℕ, i + fuel = depth →
      for_loop depth (loop_body depth gamma r g b) fuel i (after depth gamma r g b s i)
        = some (after depth gamma r g b s depth)
  | 0, i, h => by
    have : i = depth := by omega
    subst this
    rfl
  | fuel + 1, i, h => by
    have hi : i < depth := by omega
    have hov : ¬ (INT_MAX < i + 1) := by unfold INT_MAX; omega
    rw [for_loop, if_pos hi, loop_body_after depth gamma r g b s i hi]
    simp only [if_neg hov]
    exact for_loop_after depth gamma r g b s hmax fuel (i + 1) (by omega)

/-! ## The result of `calculate_cmap` -/

theorem for_loop_final (depth : ℕ) (gamma : ℚ) (r g b : ℕ) (s : State) (hd : depth < 2 ^ 31) :
    for_loop depth (loop_body depth gamma r g b) depth 0
        { cmap :=
            { start := 0, len := depth % 2 ^ 32, transp := none,
              red := malloc_u16 depth,
              green := malloc_u16 depth,
              blue := malloc_u16 depth },
          mallocs := s.mallocs + 1 + 1 + 1,
          stores := s.stores }
      = some (final depth gamma r g b s) := by
  have h := for_loop_after depth gamma r g b
    { cmap := { start := 0, len := depth % 2 ^ 32, transp := none,
                red := none, green := none, blue := none },
      mallocs := s.mallocs + 1 + 1 + 1, stores := s.stores } hd depth 0 (by omega)
  simp only [after, filled_full] at h
  rw [← malloc_u16_eq depth (entry depth gamma r) hd,
    ← malloc_u16_eq depth (entry depth gamma g) hd,
    ← malloc_u16_eq depth (entry depth gamma b) hd] at h
  have e : all_stores 0 = [] := rfl
  rw [e, List.append_nil] at h
  rw [h]
  rfl

theorem match_getD (o : Option ℕ) (d : ℕ) :
    (match o with
      | some n => n
      | none => d) = o.getD d := by
  cases o <;> rfl

theorem calculate_cmap_core (o : Options) (γ : ℚ) (s : State) (hγo : o.opt_gamma = some γ)
    (hγ : ¬ γ < gamma_min)
    (hr : ¬ o.opt_r.getD 0 > o.opt_depth.getD DEFAULT_DEPTH)
    (hg : ¬ o.opt_g.getD 0 > o.opt_depth.getD DEFAULT_DEPTH)
    (hb : ¬ o.opt_b.getD 0 > o.opt_depth.getD DEFAULT_DEPTH) :
    calculate_cmap o s
      = match for_loop (o.opt_depth.getD DEFAULT_DEPTH)
          (loop_body (o.opt_depth.getD DEFAULT_DEPTH) γ (o.opt_r.getD 0) (o.opt_g.getD 0)
            (o.opt_b.getD 0)) (o.opt_depth.getD DEFAULT_DEPTH) 0
          { cmap :=
              { start := 0, len := o.opt_depth.getD DEFAULT_DEPTH % 2 ^ 32, transp := none,
                red := malloc_u16 (o.opt_depth.getD DEFAULT_DEPTH),
                green := malloc_u16 (o.opt_depth.getD DEFAULT_DEPTH),
                blue := malloc_u16 (o.opt_depth.getD DEFAULT_DEPTH) },
            mallocs := s.mallocs + 1 + 1 + 1,
            stores := s.stores } with
        | none => Outcome.undefined
        | some s' => Outcome.returned s' := by
  obtain ⟨oγ, od, ored, og, ob⟩ := o
  simp only at hγo
  subst hγo
  simp only at hr hg hb
  unfold calculate_cmap
  simp only [match_getD, Option.isNone_some, Bool.false_or, decide_eq_false hγ,
    decide_eq_false hr, decide_eq_false hg, decide_eq_false hb, Bool.or_self,
    Bool.false_eq_true, if_false]

theorem calculate_cmap_returned (γ : ℚ) (od ored og ob : Option ℕ) (s : State)
    (hγ : ¬ γ < gamma_min)
    (hr : ored.getD 0 ≤ od.getD DEFAULT_DEPTH)
    (hg : og.getD 0 ≤ od.getD DEFAULT_DEPTH)
    (hb : ob.getD 0 ≤ od.getD DEFAULT_DEPTH)
    (hd : od.getD DEFAULT_DEPTH < 2 ^ 31) :
    calculate_cmap ⟨some γ, od, ored, og, ob⟩ s
      = Outcome.returned
          (final (od.getD DEFAULT_DEPTH) γ (ored.getD 0) (og.getD 0) (ob.getD 0) s) := by
  rw [calculate_cmap_core ⟨some γ, od, ored, og, ob⟩ γ s rfl hγ (Nat.not_lt.2 hr)
    (Nat.not_lt.2 hg) (Nat.not_lt.2 hb)]
  simp only []
  rw [for_loop_final (od.getD DEFAULT_DEPTH) γ (ored.getD 0) (og.getD 0) (ob.getD 0) s hd]

/-! ## Facts shared by the statements below -/

theorem gamma_min_eq : gamma_min = 1 / 1000 := by
  apply Rat.ext
  · show (1 : ℤ) = ((1 : ℚ) / 1000).num
    norm_num
  · show (1000 : ℕ) = ((1 : ℚ) / 1000).den
    norm_num

theorem valid_gamma (γ : ℚ) (h : 1 / 1000 ≤ γ) : ¬ γ < gamma_min ∧ 0 < γ := by
  rw [gamma_min_eq]
  constructor
  · exact not_lt.2 h
  · exact lt_of_lt_of_le (by norm_num) h

theorem final_chan (depth : ℕ) (γ : ℚ) (r g b : ℕ) (s : State) (ch : Channel) :
    (final depth γ r g b s).cmap.chan ch = some (table depth γ (offset_of r g b ch)) := by
  cases ch <;> rfl

theorem cell_table (depth : ℕ) (γ : ℚ) (off i : ℕ) (h : i < depth) :
    cell (some (table depth γ off)) i = entry depth γ off i := by
  simp [cell, table, List.getElem?_map, List.getElem?_range h]

theorem table_length (depth : ℕ) (γ : ℚ) (off : ℕ) : (table depth γ off).length = depth := by
  simp [table]

theorem scaled_above (depth : ℕ) (γ : ℚ) (off i : ℕ) (hγ : 0 < γ) (h2 : 2 ≤ depth)
    (hmax : depth < 2 ^ 31) (hoff : off ≤ i) (hi : i < depth) :
    ∃ fa fb q d : ℝ, rounds_to 24 ((i : ℝ) - off) fa ∧ rounds_to 24 ((depth : ℝ) - 1) fb ∧
      rounds_to 24 (fa / fb) q ∧ rounds_to 53 (q ^ (γ : ℝ)) d ∧
      fa ≤ fb ∧ 0 < fb ∧ 0 ≤ q ∧ q ≤ 1 ∧ 0 ≤ d ∧ d ≤ 1 ∧
      scaled depth γ off i = some (round (d * 65536)) := by
  have ht : temp_of i off = ((i - off : ℕ) : ℤ) := by
    rw [temp_of_eq i off (by omega) (by omega)]
    omega
  have hc : ((i - off : ℕ) : ℝ) = (i : ℝ) - off := by
    rw [Nat.cast_sub hoff]
  unfold scaled
  rw [ht, ← hc]
  exact scaled_of_spec depth γ (i - off) hγ h2 (by omega) (by omega)

theorem round_mono_real (x y : ℝ) (h : x ≤ y) : round x ≤ round y := by
  rw [round_eq, round_eq]
  exact Int.floor_le_floor (by linarith)

theorem round_unit_scaled (d : ℝ) (h0 : 0 ≤ d) (h1 : d ≤ 1) :
    0 ≤ round (d * 65536) ∧ round (d * 65536) ≤ 65536 := by
  rw [round_eq]
  constructor
  · apply Int.floor_nonneg.2
    linarith
  · have : ⌊d * 65536 + 1 / 2⌋ < 65537 := by
      apply Int.floor_lt.2
      push_cast
      linarith
    omega

theorem scaled_mono (depth : ℕ) (γ : ℚ) (off i1 i2 : ℕ) (hγ : 0 < γ) (h2 : 2 ≤ depth)
    (hmax : depth < 2 ^ 31) (hoff : off ≤ i1) (h12 : i1 ≤ i2) (hi : i2 < depth) :
    ∃ z1 z2 : ℤ, scaled depth γ off i1 = some z1 ∧ scaled depth γ off i2 = some z2 ∧
      0 ≤ z1 ∧ z1 ≤ z2 ∧ z2 ≤ 65536 := by
  obtain ⟨fa1, fb1, q1, d1, ra1, rb1, rq1, rd1, _, hfb1, hq1, _, hd1, hd1', e1⟩ :=
    scaled_above depth γ off i1 hγ h2 hmax hoff (by omega)
  obtain ⟨fa2, fb2, q2, d2, ra2, rb2, rq2, rd2, _, hfb2, hq2, _, hd2, hd2', e2⟩ :=
    scaled_above depth γ off i2 hγ h2 hmax (by omega) hi
  have h24 : 0 < 24 := by norm_num
  have h53 : 0 < 53 := by norm_num
  have hγ0 : (0 : ℝ) ≤ (γ : ℝ) := by exact_mod_cast le_of_lt hγ
  have hfb : fb1 = fb2 := rounds_to_unique 24 _ _ _ h24 rb1 rb2
  subst hfb
  have hi12 : (i1 : ℝ) - off ≤ (i2 : ℝ) - off := by
    have : (i1 : ℝ) ≤ (i2 : ℝ) := by exact_mod_cast h12
    linarith
  have hfa : fa1 ≤ fa2 := rounds_to_mono 24 _ _ _ _ h24 ra1 ra2 hi12
  have hq : q1 ≤ q2 :=
    rounds_to_mono 24 _ _ _ _ h24 rq1 rq2 (div_le_div_of_nonneg_right hfa (le_of_lt hfb1))
  have hd : d1 ≤ d2 :=
    rounds_to_mono 53 _ _ _ _ h53 rd1 rd2 (Real.rpow_le_rpow hq1 hq hγ0)
  refine ⟨_, _, e1, e2, (round_unit_scaled d1 hd1 hd1').1, ?_, (round_unit_scaled d2 hd2 hd2').2⟩
  exact round_mono_real _ _ (by linarith)

theorem offset_of_zero (ch : Channel) : offset_of 0 0 0 ch = 0 := by
  cases ch <;> rfl

theorem rounds_to_err (p : ℕ) (v w : ℝ) (hp : 0 < p) (h : rounds_to p v w) :
    |w - v| ≤ v / (2 : ℝ) ^ p := by
  rcases h with ⟨hv, hw⟩ | h
  · rw [hv, hw]; simp
  · exact is_rounding_err p v w hp h

theorem quotient_err (a b fa fb q : ℝ) (ha : 0 ≤ a) (hb : 0 < b)
    (h1 : rounds_to 24 a fa) (h2 : rounds_to 24 b fb) (h3 : rounds_to 24 (fa / fb) q) :
    |q - a / b| ≤ a / b / (2 : ℝ) ^ 22 := by
  have h24 : 0 < 24 := by norm_num
  have hfa : 0 ≤ fa := rounds_to_nonneg 24 a fa h24 h1
  have hq : 0 ≤ q := rounds_to_nonneg 24 _ q h24 h3
  have hfb : 0 < fb := by
    rcases h2 with ⟨hb0, _⟩ | h2
    · linarith
    · exact is_rounding_pos 24 b fb h24 h2
  have e1 := rounds_to_err 24 a fa h24 h1
  have e2 := rounds_to_err 24 b fb h24 h2
  have e3 := rounds_to_err 24 _ q h24 h3
  rw [abs_le] at e1 e2 e3
  have hr : fa / fb * fb = fa := div_mul_cancel₀ fa (ne_of_gt hfb)
  have hr0 : 0 ≤ fa / fb := div_nonneg hfa (le_of_lt hfb)
  generalize fa / fb = r at e3 hr hr0
  have hε : (2 : ℝ) ^ 24 = 16777216 := by norm_num
  have hε2 : (2 : ℝ) ^ 22 = 4194304 := by norm_num
  rw [hε] at e1 e2 e3
  rw [hε2, abs_le]
  have hx : a / b * b = a := div_mul_cancel₀ a (ne_of_gt hb)
  have hx0 : 0 ≤ a / b := div_nonneg ha (le_of_lt hb)
  generalize a / b = x at hx hx0 ⊢
  have a1 : fa ≤ a + a / 16777216 := by linarith [e1.2]
  have a2 : a - a / 16777216 ≤ fa := by linarith [e1.1]
  have b1 : fb ≤ b + b / 16777216 := by linarith [e2.2]
  have b2 : b - b / 16777216 ≤ fb := by linarith [e2.1]
  have q1 : q ≤ r + r / 16777216 := by linarith [e3.2]
  have q2 : r - r / 16777216 ≤ q := by linarith [e3.1]
  have u1 : q * fb ≤ fa + fa / 16777216 := by
    have := mul_le_mul_of_nonneg_right q1 (le_of_lt hfb)
    have e : (r + r / 16777216) * fb = r * fb + r * fb / 16777216 := by ring
    rw [e, hr] at this
    exact this
  have u2 : fa - fa / 16777216 ≤ q * fb := by
    have := mul_le_mul_of_nonneg_right q2 (le_of_lt hfb)
    have e : (r - r / 16777216) * fb = r * fb - r * fb / 16777216 := by ring
    rw [e, hr] at this
    exact this
  have u3 : q * (b - b / 16777216) ≤ q * fb := mul_le_mul_of_nonneg_left b2 hq
  have u4 : q * fb ≤ q * (b + b / 16777216) := mul_le_mul_of_nonneg_left b1 hq
  constructor
  · have hb' : 0 < b * (1 + 1 / 16777216) := by positivity
    have key : (x - x / 4194304) * (b * (1 + 1 / 16777216)) ≤ q * (b * (1 + 1 / 16777216)) := by
      have t1 : q * (b * (1 + 1 / 16777216)) = q * (b + b / 16777216) := by ring
      have t2 : (x - x / 4194304) * (b * (1 + 1 / 16777216))
          = (x * b) * ((1 - 1 / 4194304) * (1 + 1 / 16777216)) := by ring
      rw [t1, t2, hx]
      have t3 : a * ((1 - 1 / 4194304) * (1 + 1 / 16777216))
          ≤ a * ((1 - 1 / 16777216) * (1 - 1 / 16777216)) :=
        mul_le_mul_of_nonneg_left (by norm_num) ha
      have t4 : a * ((1 - 1 / 16777216) * (1 - 1 / 16777216))
          = (a - a / 16777216) - (a - a / 16777216) / 16777216 := by ring
      linarith
    have := le_of_mul_le_mul_right key hb'
    linarith
  · have hb' : 0 < b * (1 - 1 / 16777216) := by
      apply mul_pos hb
      norm_num
    have key : q * (b * (1 - 1 / 16777216)) ≤ (x + x / 4194304) * (b * (1 - 1 / 16777216)) := by
      have t1 : q * (b * (1 - 1 / 16777216)) = q * (b - b / 16777216) := by ring
      have t2 : (x + x / 4194304) * (b * (1 - 1 / 16777216))
          = (x * b) * ((1 + 1 / 4194304) * (1 - 1 / 16777216)) := by ring
      rw [t1, t2, hx]
      have t3 : a * ((1 + 1 / 16777216) * (1 + 1 / 16777216))
          ≤ a * ((1 + 1 / 4194304) * (1 - 1 / 16777216)) :=
        mul_le_mul_of_nonneg_left (by norm_num) ha
      have t4 : a * ((1 + 1 / 16777216) * (1 + 1 / 16777216))
          = (a + a / 16777216) + (a + a / 16777216) / 16777216 := by ring
      linarith
    have := le_of_mul_le_mul_right key hb'
    linarith

/-! ## The claims -/

/-- C1 fails as stated: with gamma = 2, offset 0 and depth = 72 the red entry at
index 29 is 10933, while `round((29 / 71) ^ 2 * 65536)` in exact arithmetic is
10934.  The quotient 29 / 71 is rounded to binary32 before it is squared. -/
theorem exact_arithmetic_counterexample :
    ∃ s', calculate_cmap ⟨some 2, some 72, some 0, some 0, some 0⟩ (init cmap0)
        = Outcome.returned s' ∧
      cell s'.cmap.red 29 = some 10933 ∧
      (round ((((29 : ℝ) - 0) / ((72 : ℝ) - 1)) ^ (((2 : ℚ)) : ℝ) * 65536) % 65536).toNat
        = 10934 := by
  refine ⟨_, calculate_cmap_returned 2 (some 72) (some 0) (some 0) (some 0) (init cmap0)
    (by decide) (by decide) (by decide) (by decide) (by decide), ?_, ?_⟩
  · show cell (some (table 72 2 0)) 29 = some 10933
    rw [cell_table _ _ _ _ (by decide)]
    decide
  · have e : round ((((29 : ℝ) - 0) / ((72 : ℝ) - 1)) ^ (((2 : ℚ)) : ℝ) * 65536) = 10934 := by
      have e2 : (((2 : ℚ)) : ℝ) = ((2 : ℕ) : ℝ) := by norm_num
      rw [e2, Real.rpow_natCast, round_eq, Int.floor_eq_iff]
      constructor <;> norm_num
    rw [e]
    decide

/-- C1, amended: for `2 ≤ depth ≤ INT_MAX`, a valid gamma and offsets not above
`depth`, `calculate_cmap` returns, and in every channel the entry at an index
`i` with `off ≤ i < depth` is `round(d * 65536)` reduced modulo `2 ^ 16`, where
`q` is the binary32 quotient of the binary32 values `fa` of `i - off` and `fb`
of `depth - 1`, and `d` is the power `q ^ gamma` rounded to binary64.  So `q`
is within the relative error `2 ^ -22` of `(i - off) / (depth - 1)` and `d`
within the relative error `2 ^ -53` of `q ^ gamma`.  The argument of `round` is
not negative, so halves are rounded away from zero. -/
theorem entry_at_or_above_offset (γ : ℚ) (depth r g b : ℕ) (s : State)
    (hγ : 1 / 1000 ≤ γ) (h2 : 2 ≤ depth) (hmax : depth < 2 ^ 31)
    (hr : r ≤ depth) (hg : g ≤ depth) (hb : b ≤ depth) :
    ∃ s', calculate_cmap ⟨some γ, some depth, some r, some g, some b⟩ s = Outcome.returned s' ∧
      ∀ (ch : Channel) (i : ℕ), offset_of r g b ch ≤ i → i < depth →
        ∃ fa fb q d : ℝ,
          rounds_to 24 ((i : ℝ) - offset_of r g b ch) fa ∧
          rounds_to 24 ((depth : ℝ) - 1) fb ∧
          rounds_to 24 (fa / fb) q ∧
          rounds_to 53 (q ^ (γ : ℝ)) d ∧
          |q - ((i : ℝ) - offset_of r g b ch) / ((depth : ℝ) - 1)|
            ≤ ((i : ℝ) - offset_of r g b ch) / ((depth : ℝ) - 1) / (2 : ℝ) ^ 22 ∧
          |d - q ^ (γ : ℝ)| ≤ q ^ (γ : ℝ) / (2 : ℝ) ^ 53 ∧
          cell (s'.cmap.chan ch) i = some ((round (d * 65536) % 65536).toNat) := by
  obtain ⟨hv, hpos⟩ := valid_gamma γ hγ
  refine ⟨_, calculate_cmap_returned γ (some depth) (some r) (some g) (some b) s hv hr hg hb
    (by simp only [Option.getD]; omega), ?_⟩
  intro ch i hoff hi
  simp only [Option.getD]
  rw [final_chan]
  generalize offset_of r g b ch = off at hoff ⊢
  obtain ⟨fa, fb, q, d, ra, rb, rq, rd, _, _, _, _, _, _, e⟩ :=
    scaled_above depth γ off i hpos h2 hmax hoff hi
  have hi0 : (0 : ℝ) ≤ (i : ℝ) - off := by
    have : (off : ℝ) ≤ (i : ℝ) := by exact_mod_cast hoff
    linarith
  have hd0 : (0 : ℝ) < (depth : ℝ) - 1 := by
    have : (2 : ℝ) ≤ (depth : ℝ) := by exact_mod_cast h2
    linarith
  refine ⟨fa, fb, q, d, ra, rb, rq, rd, quotient_err _ _ fa fb q hi0 hd0 ra rb rq,
    rounds_to_err 53 _ d (by norm_num) rd, ?_⟩
  rw [cell_table _ _ _ _ hi, entry, e]
  rfl

theorem round_ramp (i : ℕ) :
    (round ((i : ℝ) * 65536 / 255)).toNat = (2 * i * 65536 + 255) / 510 := by
  have h : round ((i : ℝ) * 65536 / 255) = (((2 * i * 65536 + 255) / 510 : ℕ) : ℤ) := by
    rw [round_eq, Int.floor_eq_iff]
    have h1 := Nat.div_mul_le_self (2 * i * 65536 + 255) 510
    have h2 : 2 * i * 65536 + 255 < (2 * i * 65536 + 255) / 510 * 510 + 510 :=
      Nat.lt_div_mul_add (by norm_num)
    generalize (2 * i * 65536 + 255) / 510 = k at h1 h2 ⊢
    have h1' : ((k * 510 : ℕ) : ℝ) ≤ ((2 * i * 65536 + 255 : ℕ) : ℝ) := by exact_mod_cast h1
    have h2' : ((2 * i * 65536 + 255 : ℕ) : ℝ) < ((k * 510 + 510 : ℕ) : ℝ) := by
      exact_mod_cast h2
    push_cast at h1' h2' ⊢
    constructor <;> linarith
  rw [h, Int.toNat_ofNat]

set_option maxRecDepth 100000 in
theorem ramp_entries :
    ∀ i, i < 255 → entry 256 1 0 i = some ((2 * i * 65536 + 255) / 510) := by
  decide

/-- C1, amended, at gamma = 1, all offsets 0, depth = 256, index 100; here every
entry below index 255 is `round(i * 65536 / 255)`, and the entry at index 0 is 0. -/
theorem entry_at_or_above_offset_witness :
    ∃ s', calculate_cmap ⟨some 1, some 256, some 0, some 0, some 0⟩ (init cmap0)
        = Outcome.returned s' ∧
      (∃ fa fb q d : ℝ,
        rounds_to 24 ((100 : ℝ) - 0) fa ∧ rounds_to 24 ((256 : ℝ) - 1) fb ∧
        rounds_to 24 (fa / fb) q ∧ rounds_to 53 (q ^ (((1 : ℚ)) : ℝ)) d ∧
        cell s'.cmap.red 100 = some ((round (d * 65536) % 65536).toNat)) ∧
      (∀ (ch : Channel) (i : ℕ), i < 255 →
        cell (s'.cmap.chan ch) i = some (round ((i : ℝ) * 65536 / 255)).toNat) ∧
      ∀ ch : Channel, cell (s'.cmap.chan ch) 0 = some 0 := by
  obtain ⟨s', h, hall⟩ := entry_at_or_above_offset 1 256 0 0 0 (init cmap0)
    (by norm_num) (by norm_num) (by norm_num) (by norm_num) (by norm_num) (by norm_num)
  have hs : s' = final 256 1 0 0 0 (init cmap0) := by
    have h' := calculate_cmap_returned 1 (some 256) (some 0) (some 0) (some 0) (init cmap0)
      (by decide) (by decide) (by decide) (by decide) (by decide)
    rw [h] at h'
    exact Outcome.returned.inj h'
  have key : ∀ (ch : Channel) (i : ℕ), i < 255 →
      cell (s'.cmap.chan ch) i = some (round ((i : ℝ) * 65536 / 255)).toNat := by
    intro ch i hi
    rw [hs, final_chan, offset_of_zero, cell_table _ _ _ _ (by omega), ramp_entries i hi,
      round_ramp]
  refine ⟨s', h, ?_, key, ?_⟩
  · obtain ⟨fa, fb, q, d, ra, rb, rq, rd, _, _, hc⟩ :=
      hall Channel.red 100 (Nat.zero_le _) (by norm_num)
    refine ⟨fa, fb, q, d, ?_, ?_, rq, rd, hc⟩
    · simpa [offset_of] using ra
    · simpa using rb
  · intro ch
    have h0 := key ch 0 (by norm_num)
    simpa using h0

/-- C2, at the failing input: with gamma = 2 and depth = 256 the red entry at
index 0 is 25 for the red offset 5 and 515 for the red offset 256, not 0. -/
theorem below_offset_entry_not_zero :
    (∃ s', calculate_cmap ⟨some 2, some 256, some 5, some 0, some 0⟩ (init cmap0)
        = Outcome.returned s' ∧ cell s'.cmap.red 0 = some 25) ∧
    (∃ s', calculate_cmap ⟨some 2, some 256, some 256, some 0, some 0⟩ (init cmap0)
        = Outcome.returned s' ∧ cell s'.cmap.red 0 = some 515) := by
  constructor
  · refine ⟨_, calculate_cmap_returned 2 (some 256) (some 5) (some 0) (some 0) (init cmap0)
      (by decide) (by decide) (by decide) (by decide) (by decide), ?_⟩
    show cell (some (table 256 2 5)) 0 = some 25
    rw [cell_table _ _ _ _ (by decide)]
    decide
  · refine ⟨_, calculate_cmap_returned 2 (some 256) (some 256) (some 0) (some 0) (init cmap0)
      (by decide) (by decide) (by decide) (by decide) (by decide), ?_⟩
    show cell (some (table 256 2 256)) 0 = some 515
    rw [cell_table _ _ _ _ (by decide)]
    decide

/-- C3 fails as stated: with gamma = 1, offset 0 and depth = 256 the red entry at
index 254 is 65279 and the one at index 255 is 0, so the table decreases there. -/
theorem monotone_counterexample :
    ∃ s' v1 v2, calculate_cmap ⟨some 1, some 256, some 0, some 0, some 0⟩ (init cmap0)
        = Outcome.returned s' ∧
      cell s'.cmap.red 254 = some v1 ∧ cell s'.cmap.red 255 = some v2 ∧
      v1 = 65279 ∧ v2 = 0 ∧ ¬ v1 ≤ v2 := by
  refine ⟨_, 65279, 0, calculate_cmap_returned 1 (some 256) (some 0) (some 0) (some 0)
    (init cmap0) (by decide) (by decide) (by decide) (by decide) (by decide), ?_, ?_, rfl, rfl,
    by decide⟩
  · show cell (some (table 256 1 0)) 254 = some 65279
    rw [cell_table _ _ _ _ (by decide)]
    decide
  · show cell (some (table 256 1 0)) 255 = some 0
    rw [cell_table _ _ _ _ (by decide)]
    decide

/-- C3, amended: for `2 ≤ depth ≤ INT_MAX`, a valid gamma and offsets not above
`depth`, take indices `off ≤ i1 < i2 < depth` of a channel.  The values computed
for `i1` and `i2` before the 16-bit store are ordered, and if the value for `i2`
is below 65536 then so are the stored entries: `table[i1] ≤ table[i2]`. -/
theorem monotone_without_wraparound (γ : ℚ) (depth r g b : ℕ) (s : State)
    (hγ : 1 / 1000 ≤ γ) (h2 : 2 ≤ depth) (hmax : depth < 2 ^ 31)
    (hr : r ≤ depth) (hg : g ≤ depth) (hb : b ≤ depth) :
    ∃ s', calculate_cmap ⟨some γ, some depth, some r, some g, some b⟩ s = Outcome.returned s' ∧
      ∀ (ch : Channel) (i1 i2 : ℕ), offset_of r g b ch ≤ i1 → i1 < i2 → i2 < depth →
        ∃ z1 z2 : ℤ, scaled depth γ (offset_of r g b ch) i1 = some z1 ∧
          scaled depth γ (offset_of r g b ch) i2 = some z2 ∧ z1 ≤ z2 ∧
          (z2 < 65536 → ∃ v1 v2 : ℕ, cell (s'.cmap.chan ch) i1 = some v1 ∧
            cell (s'.cmap.chan ch) i2 = some v2 ∧ v1 ≤ v2) := by
  obtain ⟨hv, hpos⟩ := valid_gamma γ hγ
  refine ⟨_, calculate_cmap_returned γ (some depth) (some r) (some g) (some b) s hv hr hg hb
    (by simp only [Option.getD]; omega), ?_⟩
  intro ch i1 i2 hoff h12 hi2
  simp only [Option.getD]
  rw [final_chan]
  generalize offset_of r g b ch = off at hoff ⊢
  obtain ⟨z1, z2, e1, e2, h0, hle, _⟩ :=
    scaled_mono depth γ off i1 i2 hpos h2 hmax hoff (le_of_lt h12) hi2
  refine ⟨z1, z2, e1, e2, hle, ?_⟩
  intro hlt
  rw [cell_table _ _ _ _ hi2, cell_table _ _ _ _ (by omega : i1 < depth), entry, entry, e1, e2]
  refine ⟨_, _, rfl, rfl, ?_⟩
  unfold to_u16
  rw [Int.emod_eq_of_lt h0 (lt_of_le_of_lt hle hlt), Int.emod_eq_of_lt (le_trans h0 hle) hlt]
  exact Int.toNat_le_toNat hle

/-- C3, amended, at gamma = 1, offset 0, depth = 256 and the indices 253 and 254. -/
theorem monotone_without_wraparound_witness :
    ∃ s' v1 v2, calculate_cmap ⟨some 1, some 256, some 0, some 0, some 0⟩ (init cmap0)
        = Outcome.returned s' ∧
      cell s'.cmap.red 253 = some v1 ∧ cell s'.cmap.red 254 = some v2 ∧ v1 ≤ v2 := by
  obtain ⟨s', h, hall⟩ := monotone_without_wraparound 1 256 0 0 0 (init cmap0)
    (by norm_num) (by norm_num) (by norm_num) (by norm_num) (by norm_num) (by norm_num)
  obtain ⟨z1, z2, _, e2, _, hst⟩ := hall Channel.red 253 254 (by decide) (by decide) (by decide)
  have hval : scaled 256 1 (offset_of 0 0 0 Channel.red) 254 = some 65279 := by decide
  rw [hval] at e2
  have hz : z2 = 65279 := (Option.some.inj e2).symm
  obtain ⟨v1, v2, c1, c2, hle⟩ := hst (by omega)
  exact ⟨s', v1, v2, h, c1, c2, hle⟩

theorem all_stores_count (depth : ℕ) (ch : Channel) (i : ℕ) :
    (all_stores depth).count (ch, i) = if i < depth then 1 else 0 := by
  induction depth with
  | zero => simp [all_stores]
  | succ n ih =>
    rw [all_stores_succ, List.count_append, ih]
    by_cases h1 : i < n
    · have h2 : i ≠ n := by omega
      have h3 : n ≠ i := by omega
      have h4 : i < n + 1 := by omega
      simp [h1, h4, List.count_cons, h2, h3]
    · by_cases h2 : i = n
      · subst h2
        cases ch <;> simp [List.count_cons]
      · have h3 : ¬ i < n + 1 := by omega
        have h4 : n ≠ i := by omega
        simp [h1, h3, List.count_cons, h2, h4]

/-- C5: for an input that passes both checks (gamma at least 0.001, offsets not
above the depth in force) and a depth within `INT_MAX`, `calculate_cmap` returns
with `start = 0`, `len = depth`, `transp = NULL` and three tables of exactly
`depth` cells; the call assigns each cell `0 .. depth - 1` of each table exactly
once and no other cell. -/
theorem result_shape (γ : ℚ) (od ored og ob : Option ℕ) (s : State)
    (hγ : 1 / 1000 ≤ γ)
    (hr : ored.getD 0 ≤ od.getD DEFAULT_DEPTH)
    (hg : og.getD 0 ≤ od.getD DEFAULT_DEPTH)
    (hb : ob.getD 0 ≤ od.getD DEFAULT_DEPTH)
    (hmax : od.getD DEFAULT_DEPTH < 2 ^ 31) :
    ∃ s', calculate_cmap ⟨some γ, od, ored, og, ob⟩ s = Outcome.returned s' ∧
      s'.cmap.start = 0 ∧ s'.cmap.len = od.getD DEFAULT_DEPTH ∧ s'.cmap.transp = none ∧
      (∀ ch : Channel, ∃ t, s'.cmap.chan ch = some t ∧ t.length = od.getD DEFAULT_DEPTH) ∧
      ∃ w, s'.stores = s.stores ++ w ∧
        ∀ (ch : Channel) (i : ℕ),
          w.count (ch, i) = if i < od.getD DEFAULT_DEPTH then 1 else 0 := by
  obtain ⟨hv, _⟩ := valid_gamma γ hγ
  refine ⟨_, calculate_cmap_returned γ od ored og ob s hv hr hg hb hmax, rfl, ?_, rfl,
    ?_, ?_⟩
  · show od.getD DEFAULT_DEPTH % 2 ^ 32 = od.getD DEFAULT_DEPTH
    omega
  · intro ch
    exact ⟨_, final_chan _ _ _ _ _ _ ch, table_length _ _ _⟩
  · exact ⟨all_stores (od.getD DEFAULT_DEPTH), rfl, all_stores_count _⟩

/-- C5 at gamma = 2, depth = 4 and the offsets 1, 0 (default) and 4. -/
theorem result_shape_witness :
    ∃ s', calculate_cmap ⟨some 2, some 4, some 1, none, some 4⟩ (init cmap0)
        = Outcome.returned s' ∧
      s'.cmap.start = 0 ∧ s'.cmap.len = 4 ∧ s'.cmap.transp = none ∧
      (∀ ch : Channel, ∃ t, s'.cmap.chan ch = some t ∧ t.length = 4) ∧
      ∃ w, s'.stores = [] ++ w ∧
        ∀ (ch : Channel) (i : ℕ), w.count (ch, i) = if i < 4 then 1 else 0 :=
  result_shape 2 (some 4) (some 1) none (some 4) (init cmap0)
    (by norm_num) (by decide) (by decide) (by decide) (by decide)

/-- C6 fails as stated: with gamma = 2 and depth = 1 (option `-n 1`) the call is
not rejected.  It returns a colour map with `len = 1`, the loop body runs once,
and the divisor `depth - 1` it uses is 0. -/
theorem depth_one_counterexample :
    ∃ s', calculate_cmap ⟨some 2, some 1, none, none, none⟩ (init cmap0)
        = Outcome.returned s' ∧
      s'.cmap.len = 1 ∧
      s'.stores = [(Channel.red, 0), (Channel.green, 0), (Channel.blue, 0)] ∧
      usub 1 1 = 0 := by
  refine ⟨_, calculate_cmap_returned 2 (some 1) none none none (init cmap0)
    (by decide) (by decide) (by decide) (by decide) (by decide), ?_, ?_, ?_⟩ <;> decide

/-- C6, amended: `calculate_cmap` has no check of the depth.  For `depth < 2`, a
valid gamma and offsets not above `depth` it returns a colour map with
`start = 0`, `len = depth` and three tables of `depth` cells; for `depth = 0`
the loop body is never run, so no cell is assigned. -/
theorem depth_below_two_accepted (γ : ℚ) (depth r g b : ℕ) (s : State)
    (hγ : 1 / 1000 ≤ γ) (hd : depth < 2)
    (hr : r ≤ depth) (hg : g ≤ depth) (hb : b ≤ depth) :
    ∃ s', calculate_cmap ⟨some γ, some depth, some r, some g, some b⟩ s = Outcome.returned s' ∧
      s'.cmap.start = 0 ∧ s'.cmap.len = depth ∧
      (∀ ch : Channel, ∃ t, s'.cmap.chan ch = some t ∧ t.length = depth) ∧
      (depth = 0 → s'.stores = s.stores) := by
  obtain ⟨hv, _⟩ := valid_gamma γ hγ
  refine ⟨_, calculate_cmap_returned γ (some depth) (some r) (some g) (some b) s hv hr hg hb
    (by simp only [Option.getD]; omega), rfl, ?_, ?_, ?_⟩
  · show depth % 2 ^ 32 = depth
    omega
  · intro ch
    exact ⟨_, final_chan _ _ _ _ _ _ ch, table_length _ _ _⟩
  · intro h0
    simp only [Option.getD]
    subst h0
    simp [final, all_stores]

/-- C6, amended, at gamma = 2 and depth = 0. -/
theorem depth_below_two_accepted_witness :
    ∃ s', calculate_cmap ⟨some 2, some 0, some 0, some 0, some 0⟩ (init cmap0)
        = Outcome.returned s' ∧
      s'.cmap.start = 0 ∧ s'.cmap.len = 0 ∧
      (∀ ch : Channel, ∃ t, s'.cmap.chan ch = some t ∧ t.length = 0) ∧
      (0 = 0 → s'.stores = (init cmap0).stores) :=
  depth_below_two_accepted 2 0 0 0 0 (init cmap0)
    (by norm_num) (by decide) (by decide) (by decide) (by decide)

theorem calculate_cmap_congr (o o' : Options) (s : State)
    (h1 : o.opt_gamma = o'.opt_gamma)
    (h2 : o.opt_depth.getD DEFAULT_DEPTH = o'.opt_depth.getD DEFAULT_DEPTH)
    (h3 : o.opt_r.getD 0 = o'.opt_r.getD 0)
    (h4 : o.opt_g.getD 0 = o'.opt_g.getD 0)
    (h5 : o.opt_b.getD 0 = o'.opt_b.getD 0) :
    calculate_cmap o s = calculate_cmap o' s := by
  obtain ⟨oγ, od, ored, og, ob⟩ := o
  obtain ⟨oγ', od', ored', og', ob'⟩ := o'
  simp only at h1 h2 h3 h4 h5
  subst h1
  unfold calculate_cmap
  simp only [match_getD, h2, h3, h4, h5]

/-- C7: without option `-n` the depth is 256: the call behaves as with `-n 256`,
and for a valid gamma and offsets up to 256 the colour map returned has
`len = 256` and 256 cells in each table.  Without the offset option of a channel
the call behaves as with offset 0 for that channel, whatever the other options. -/
theorem defaults_in_force (γ : ℚ) (od ored og ob : Option ℕ) (s : State)
    (hγ : 1 / 1000 ≤ γ)
    (hr : ored.getD 0 ≤ 256) (hg : og.getD 0 ≤ 256) (hb : ob.getD 0 ≤ 256) :
    (∃ s', calculate_cmap ⟨some γ, none, ored, og, ob⟩ s = Outcome.returned s' ∧
        s'.cmap.len = 256 ∧
        ∀ ch : Channel, ∃ t, s'.cmap.chan ch = some t ∧ t.length = 256) ∧
    calculate_cmap ⟨some γ, none, ored, og, ob⟩ s
      = calculate_cmap ⟨some γ, some 256, ored, og, ob⟩ s ∧
    calculate_cmap ⟨some γ, od, none, og, ob⟩ s
      = calculate_cmap ⟨some γ, od, some 0, og, ob⟩ s ∧
    calculate_cmap ⟨some γ, od, ored, none, ob⟩ s
      = calculate_cmap ⟨some γ, od, ored, some 0, ob⟩ s ∧
    calculate_cmap ⟨some γ, od, ored, og, none⟩ s
      = calculate_cmap ⟨some γ, od, ored, og, some 0⟩ s := by
  obtain ⟨hv, _⟩ := valid_gamma γ hγ
  refine ⟨⟨_, calculate_cmap_returned γ none ored og ob s hv hr hg hb (by decide), ?_, ?_⟩,
    ?_, ?_, ?_, ?_⟩
  · show DEFAULT_DEPTH % 2 ^ 32 = 256
    decide
  · intro ch
    exact ⟨_, final_chan _ _ _ _ _ _ ch, table_length _ _ _⟩
  · exact calculate_cmap_congr _ _ s rfl rfl rfl rfl rfl
  · exact calculate_cmap_congr _ _ s rfl rfl rfl rfl rfl
  · exact calculate_cmap_congr _ _ s rfl rfl rfl rfl rfl
  · exact calculate_cmap_congr _ _ s rfl rfl rfl rfl rfl

/-- C7 at gamma = 2 with no option given, against the explicit values. -/
theorem defaults_in_force_witness :
    (∃ s', calculate_cmap ⟨some 2, none, none, none, none⟩ (init cmap0) = Outcome.returned s' ∧
        s'.cmap.len = 256 ∧
        ∀ ch : Channel, ∃ t, s'.cmap.chan ch = some t ∧ t.length = 256) ∧
    calculate_cmap ⟨some 2, none, none, none, none⟩ (init cmap0)
      = calculate_cmap ⟨some 2, some 256, none, none, none⟩ (init cmap0) ∧
    calculate_cmap ⟨some 2, some 8, none, none, none⟩ (init cmap0)
      = calculate_cmap ⟨some 2, some 8, some 0, none, none⟩ (init cmap0) ∧
    calculate_cmap ⟨some 2, some 8, none, none, none⟩ (init cmap0)
      = calculate_cmap ⟨some 2, some 8, none, some 0, none⟩ (init cmap0) ∧
    calculate_cmap ⟨some 2, some 8, none, none, none⟩ (init cmap0)
      = calculate_cmap ⟨some 2, some 8, none, none, some 0⟩ (init cmap0) :=
  defaults_in_force 2 (some 8) none none none (init cmap0)
    (by norm_num) (by decide) (by decide) (by decide)

/-- C8: for `2 ≤ depth ≤ INT_MAX`, a valid gamma and offsets not above `depth`,
a channel with offset 0 has at index `depth - 1` the base 1 (the binary32 value
`8388608 / 8388608`), the value 65536 before the store, and the stored entry 0. -/
theorem top_of_curve_wraps (γ : ℚ) (depth r g b : ℕ) (s : State)
    (hγ : 1 / 1000 ≤ γ) (h2 : 2 ≤ depth) (hmax : depth < 2 ^ 31)
    (hr : r ≤ depth) (hg : g ≤ depth) (hb : b ≤ depth) :
    ∃ s', calculate_cmap ⟨some γ, some depth, some r, some g, some b⟩ s = Outcome.returned s' ∧
      ∀ ch : Channel, offset_of r g b ch = 0 →
        fdiv (temp_of (depth - 1) 0) (usub depth 1) = Val.root false 8388608 8388608 1 ∧
          scaled depth γ 0 (depth - 1) = some 65536 ∧
          cell (s'.cmap.chan ch) (depth - 1) = some 0 := by
  obtain ⟨hv, hpos⟩ := valid_gamma γ hγ
  refine ⟨_, calculate_cmap_returned γ (some depth) (some r) (some g) (some b) s hv hr hg hb
    (by simp only [Option.getD]; omega), ?_⟩
  intro ch hch
  simp only [Option.getD]
  have h24 : 0 < 24 := by norm_num
  have h53 : 0 < 53 := by norm_num
  have hd1 : ((depth - 1 : ℕ) : ℝ) - ((0 : ℕ) : ℝ) = (depth : ℝ) - 1 := by
    rw [Nat.cast_sub (by omega)]; simp
  have hsc : scaled depth γ 0 (depth - 1) = some 65536 := by
    obtain ⟨fa, fb, q, d, ra, rb, rq, rd, _, hfb, _, _, _, _, e⟩ :=
      scaled_above depth γ 0 (depth - 1) hpos h2 hmax (Nat.zero_le _) (by omega)
    rw [hd1] at ra
    have hab : fa = fb := rounds_to_unique 24 _ _ _ h24 ra rb
    rw [hab, div_self (ne_of_gt hfb)] at rq
    have hq : q = 1 := rounds_to_one 24 q h24 rq
    rw [hq, Real.one_rpow] at rd
    have hd : d = 1 := rounds_to_one 53 d h53 rd
    rw [e, hd]
    have e' : (1 : ℝ) * 65536 = ((65536 : ℤ) : ℝ) := by norm_num
    rw [e', round_intCast]
  refine ⟨?_, hsc, ?_⟩
  · rw [temp_of_eq (depth - 1) 0 (by omega) (by omega), usub_one depth (by omega) (by omega)]
    have hn : ((depth - 1 : ℕ) : ℤ) - ((0 : ℕ) : ℤ) = ((depth - 1 : ℕ) : ℤ) := by simp
    rw [hn]
    have hne : ((depth - 1 : ℕ) : ℤ) ≠ 0 := by omega
    obtain ⟨A, B, e, hA, hB, _⟩ := to_f32_of_int ((depth - 1 : ℕ) : ℤ) hne
    have hnn : ¬ (((depth - 1 : ℕ) : ℤ) < 0) := by omega
    rw [decide_eq_false hnn] at e
    unfold fdiv
    rw [e]
    simp only [fquot, if_neg (Nat.ne_of_gt hA), pow_one, mul_one, Bool.xor_false]
    rw [Nat.mul_comm B A]
    exact to_f32_same false (A * B) (Nat.mul_pos hA hB)
  · rw [final_chan, hch, cell_table _ _ _ _ (by omega : depth - 1 < depth), entry, hsc]
    rfl

/-- C8 at gamma = 2, depth = 2 (entry 1) and at gamma = 1, depth = 256 (entry 255),
for the red channel with offset 0. -/
theorem top_of_curve_wraps_witness :
    (∃ s', calculate_cmap ⟨some 2, some 2, some 0, some 0, some 0⟩ (init cmap0)
        = Outcome.returned s' ∧
      scaled 2 2 0 1 = some 65536 ∧ cell s'.cmap.red 1 = some 0) ∧
    (∃ s', calculate_cmap ⟨some 1, some 256, some 0, some 0, some 0⟩ (init cmap0)
        = Outcome.returned s' ∧
      scaled 256 1 0 255 = some 65536 ∧ cell s'.cmap.red 255 = some 0) := by
  constructor
  · obtain ⟨s', h, hall⟩ := top_of_curve_wraps 2 2 0 0 0 (init cmap0)
      (by norm_num) (by norm_num) (by norm_num) (by norm_num) (by norm_num) (by norm_num)
    exact ⟨s', h, (hall Channel.red rfl).2.1, (hall Channel.red rfl).2.2⟩
  · obtain ⟨s', h, hall⟩ := top_of_curve_wraps 1 256 0 0 0 (init cmap0)
      (by norm_num) (by norm_num) (by norm_num) (by norm_num) (by norm_num) (by norm_num)
    exact ⟨s', h, (hall Channel.red rfl).2.1, (hall Channel.red rfl).2.2⟩

/-- C9: for a fixed depth (within `INT_MAX`) and a fixed valid gamma, take two
valid triples of offsets.  A channel whose offset is the same in both calls has
the same table in both results, whatever the other two offsets are; and within
one result two channels with equal offsets have equal tables. -/
theorem channels_independent (γ : ℚ) (depth r g b r' g' b' : ℕ) (s : State)
    (hγ : 1 / 1000 ≤ γ) (hmax : depth < 2 ^ 31)
    (hr : r ≤ depth) (hg : g ≤ depth) (hb : b ≤ depth)
    (hr' : r' ≤ depth) (hg' : g' ≤ depth) (hb' : b' ≤ depth) :
    ∃ s1 s2,
      calculate_cmap ⟨some γ, some depth, some r, some g, some b⟩ s = Outcome.returned s1 ∧
      calculate_cmap ⟨some γ, some depth, some r', some g', some b'⟩ s = Outcome.returned s2 ∧
      (r = r' → s1.cmap.red = s2.cmap.red) ∧
      (g = g' → s1.cmap.green = s2.cmap.green) ∧
      (b = b' → s1.cmap.blue = s2.cmap.blue) ∧
      (r = g → s1.cmap.red = s1.cmap.green) ∧
      (r = b → s1.cmap.red = s1.cmap.blue) ∧
      (g = b → s1.cmap.green = s1.cmap.blue) := by
  obtain ⟨hv, _⟩ := valid_gamma γ hγ
  refine ⟨_, _,
    calculate_cmap_returned γ (some depth) (some r) (some g) (some b) s hv hr hg hb
      (by simp only [Option.getD]; omega),
    calculate_cmap_returned γ (some depth) (some r') (some g') (some b') s hv hr' hg' hb'
      (by simp only [Option.getD]; omega), ?_, ?_, ?_, ?_, ?_, ?_⟩ <;>
  · intro h
    simp only [Option.getD, final, h]

/-- C9 at gamma = 2 and depth = 4: the offsets (1, 1, 2) against (1, 3, 0).  The
red tables of the two results agree, and red and green agree in the first. -/
theorem channels_independent_witness :
    ∃ s1 s2,
      calculate_cmap ⟨some 2, some 4, some 1, some 1, some 2⟩ (init cmap0)
        = Outcome.returned s1 ∧
      calculate_cmap ⟨some 2, some 4, some 1, some 3, some 0⟩ (init cmap0)
        = Outcome.returned s2 ∧
      s1.cmap.red = s2.cmap.red ∧ s1.cmap.red = s1.cmap.green := by
  obtain ⟨s1, s2, h1, h2, hred, _, _, hrg, _, _⟩ :=
    channels_independent 2 4 1 1 2 1 3 0 (init cmap0)
      (by norm_num) (by norm_num) (by norm_num) (by norm_num) (by norm_num)
      (by norm_num) (by norm_num) (by norm_num)
  exact ⟨s1, s2, h1, h2, hred rfl, hrg rfl⟩

/-- C10: the comparison `(i - r) < 0` is made in `unsigned long` and is false,
so the branch that would set `temp` to 0 is not taken.  For `i < off ≤ depth`
with `depth ≤ INT_MAX`, `temp` is the negative integer `i - off`, and the base
handed to `pow` is negative, not 0: it is minus the binary32 quotient of the
binary32 values of `off - i` and `depth - 1` (minus infinity when `depth = 1`). -/
theorem clamp_branch_dead (i off depth : ℕ)
    (hi : i < off) (hoff : off ≤ depth) (hmax : depth < 2 ^ 31) :
    ¬ (usub i off < 0) ∧
    temp_of i off = to_int (usub i off) ∧
    temp_of i off = (i : ℤ) - (off : ℤ) ∧
    temp_of i off < 0 ∧
    (2 ≤ depth →
      ∃ (a b : ℕ) (fa fb : ℝ),
        fdiv (temp_of i off) (usub depth 1) = Val.root true a b 1 ∧ 0 < a ∧ 0 < b ∧
        rounds_to 24 ((off : ℝ) - (i : ℝ)) fa ∧ rounds_to 24 ((depth : ℝ) - 1) fb ∧
        rounds_to 24 (fa / fb) ((a : ℝ) / b)) ∧
    (depth = 1 → fdiv (temp_of i off) (usub depth 1) = Val.inf true) := by
  have ht : temp_of i off = (i : ℤ) - (off : ℤ) := temp_of_eq i off (by omega) (by omega)
  have hneg : (i : ℤ) - (off : ℤ) < 0 := by omega
  have hne : (i : ℤ) - (off : ℤ) ≠ 0 := by omega
  refine ⟨Nat.not_lt_zero _, ?_, ht, by rw [ht]; exact hneg, ?_, ?_⟩
  · unfold temp_of
    rw [if_neg (Nat.not_lt_zero _)]
  · intro h2
    rw [ht, usub_one depth (by omega) (by omega)]
    obtain ⟨A, B, fa, fb, e, hA, hB, ra, rb, rq⟩ :=
      fdiv_spec ((i : ℤ) - (off : ℤ)) (depth - 1) hne (by omega)
    rw [decide_eq_true hneg] at e
    have hna : (((i : ℤ) - (off : ℤ)).natAbs : ℝ) = (off : ℝ) - (i : ℝ) := by
      have h1 : ((i : ℤ) - (off : ℤ)).natAbs = off - i := by omega
      rw [h1, Nat.cast_sub (le_of_lt hi)]
    have hdb : ((depth - 1 : ℕ) : ℝ) = (depth : ℝ) - 1 := by
      rw [Nat.cast_sub (by omega)]; simp
    rw [hna] at ra
    rw [hdb] at rb
    exact ⟨A, B, fa, fb, e, hA, hB, Or.inr ra, Or.inr rb, Or.inr rq⟩
  · intro h1
    subst h1
    have hoff1 : off = 1 := by omega
    have hi0 : i = 0 := by omega
    subst hoff1 hi0
    decide

/-- C10 at depth = 256, gamma = 2, offset 5 and index 0: `temp` is -5, the base
is the binary32 value of -5/255, and the entry stored is 25. -/
theorem clamp_branch_dead_witness :
    temp_of 0 5 = -5 ∧
    fdiv (temp_of 0 5) (usub 256 1) = Val.root true 10526881 536870912 1 ∧
    entry 256 2 5 0 = some 25 := by
  obtain ⟨_, _, ht, _, _, _⟩ :=
    clamp_branch_dead 0 5 256 (by decide) (by decide) (by decide)
  exact ⟨by simpa using ht, by decide, by decide⟩

theorem invalid_gamma_iff (o : Options) :
    invalid_gamma o ↔
      (o.opt_gamma.isNone || decide ((match o.opt_gamma with
        | some x => x
        | none => 0) < gamma_min)) = true := by
  unfold invalid_gamma
  rw [gamma_min_eq]
  cases o.opt_gamma <;> simp

theorem offset_out_of_range_iff (o : Options) :
    offset_out_of_range o ↔
      (decide ((match o.opt_r with
          | some n => n
          | none => 0) > (match o.opt_depth with
          | some n => n
          | none => DEFAULT_DEPTH)) ||
        decide ((match o.opt_g with
          | some n => n
          | none => 0) > (match o.opt_depth with
          | some n => n
          | none => DEFAULT_DEPTH)) ||
        decide ((match o.opt_b with
          | some n => n
          | none => 0) > (match o.opt_depth with
          | some n => n
          | none => DEFAULT_DEPTH))) = true := by
  unfold offset_out_of_range
  cases o.opt_depth <;> cases o.opt_r <;> cases o.opt_g <;> cases o.opt_b <;>
    simp [Option.getD, or_assoc]

/-- C4 fails as stated: with gamma = 2 and depth = 2 ^ 63 (option
`-n 9223372036854775808`) no check fails, yet no colour map is produced.  The
size `depth * sizeof(__u16)` wraps to 0, the tables have no cell, and the first
assignment of the loop has no defined behaviour.  The same happens with depth
`ULONG_MAX` (option `-n -1`), where `malloc` returns `NULL`. -/
theorem unchecked_depth_counterexample :
    ¬ (invalid_gamma ⟨some 2, some (2 ^ 63), none, none, none⟩ ∨
        offset_out_of_range ⟨some 2, some (2 ^ 63), none, none, none⟩) ∧
    malloc_u16 (2 ^ 63) = some [] ∧
    calculate_cmap ⟨some 2, some (2 ^ 63), none, none, none⟩ (init cmap0)
      = Outcome.undefined ∧
    malloc_u16 (2 ^ 64 - 1) = none ∧
    calculate_cmap ⟨some 2, some (2 ^ 64 - 1), none, none, none⟩ (init cmap0)
      = Outcome.undefined := by
  refine ⟨?_, by decide, by decide, by decide, by decide⟩
  norm_num [invalid_gamma, offset_out_of_range, DEFAULT_DEPTH]

/-- C4, amended: `calculate_cmap` exits through `die` exactly when gamma is
missing or below 0.001 or one of the three offsets is greater than the depth.
When it exits, the state is the one it was called in: no field of the colour
map has been assigned, no table has been allocated and no cell has been stored.
In every other case with `depth ≤ INT_MAX` it returns a colour map with
`start = 0`, `len = depth`, `transp = NULL` and three tables of `depth` cells. -/
theorem dies_iff_invalid (o : Options) (s : State) :
    ((∃ msg, calculate_cmap o s = Outcome.exited msg s) ↔
      (invalid_gamma o ∨ offset_out_of_range o)) ∧
    (∀ msg s', calculate_cmap o s = Outcome.exited msg s' → s' = s) ∧
    (¬ (invalid_gamma o ∨ offset_out_of_range o) → o.opt_depth.getD DEFAULT_DEPTH ≤ INT_MAX →
      ∃ s', calculate_cmap o s = Outcome.returned s' ∧
        s'.cmap.start = 0 ∧ s'.cmap.len = o.opt_depth.getD DEFAULT_DEPTH ∧
        s'.cmap.transp = none ∧
        ∀ ch : Channel, ∃ t, s'.cmap.chan ch = some t ∧
          t.length = o.opt_depth.getD DEFAULT_DEPTH) := by
  refine ⟨?_, ?_, ?_⟩
  · rw [invalid_gamma_iff, offset_out_of_range_iff]
    unfold calculate_cmap die
    simp only []
    split
    · next h => simp [h]
    · next h =>
      split
      · next h' => simp [h, h']
      · next h' =>
        split <;> simp [h, h']
  · intro msg s'
    unfold calculate_cmap die
    simp only []
    split
    · intro h; injection h with _ h2; exact h2.symm
    · split
      · intro h; injection h with _ h2; exact h2.symm
      · split <;> intro h <;> cases h
  · intro hv hmax
    obtain ⟨oγ, od, ored, og, ob⟩ := o
    simp only [invalid_gamma, offset_out_of_range, not_or, not_lt] at hv
    simp only at hmax
    obtain ⟨hg, hr, hgr, hb⟩ := hv
    cases oγ with
    | none => simp at hg
    | some γ =>
      simp only at hg
      have hγ : ¬ γ < gamma_min := by rw [gamma_min_eq]; exact hg
      have hd : od.getD DEFAULT_DEPTH < 2 ^ 31 := by unfold INT_MAX at hmax; omega
      refine ⟨_, calculate_cmap_returned γ od ored og ob s hγ hr hgr hb hd, rfl, ?_, rfl, ?_⟩
      · show od.getD DEFAULT_DEPTH % 2 ^ 32 = od.getD DEFAULT_DEPTH
        omega
      · intro ch
        exact ⟨_, final_chan _ _ _ _ _ _ ch, table_length _ _ _⟩

/-- C4, amended, at the inputs named in the claim, depth = 256: gamma absent,
gamma = 0 and gamma = -1 exit, a red offset of 257 exits, and a red offset of
256 with gamma = 2 returns a colour map with `len = 256`. -/
theorem dies_iff_invalid_witness :
    (∃ msg, calculate_cmap ⟨none, some 256, none, none, none⟩ (init cmap0)
      = Outcome.exited msg (init cmap0)) ∧
    (∃ msg, calculate_cmap ⟨some 0, some 256, none, none, none⟩ (init cmap0)
      = Outcome.exited msg (init cmap0)) ∧
    (∃ msg, calculate_cmap ⟨some (-1), some 256, none, none, none⟩ (init cmap0)
      = Outcome.exited msg (init cmap0)) ∧
    (∃ msg, calculate_cmap ⟨some 2, some 256, some 257, none, none⟩ (init cmap0)
      = Outcome.exited msg (init cmap0)) ∧
    (∃ s', calculate_cmap ⟨some 2, some 256, some 256, none, none⟩ (init cmap0)
      = Outcome.returned s' ∧ s'.cmap.len = 256) := by
  refine ⟨(dies_iff_invalid _ _).1.2 (Or.inl ?_), (dies_iff_invalid _ _).1.2 (Or.inl ?_),
    (dies_iff_invalid _ _).1.2 (Or.inl ?_), (dies_iff_invalid _ _).1.2 (Or.inr ?_), ?_⟩
  · simp [invalid_gamma]
  · norm_num [invalid_gamma]
  · norm_num [invalid_gamma]
  · simp [offset_out_of_range, DEFAULT_DEPTH]
  · obtain ⟨s', h, _, hlen, _⟩ :=
      (dies_iff_invalid ⟨some 2, some 256, some 256, none, none⟩ (init cmap0)).2.2
        (by norm_num [invalid_gamma, offset_out_of_range, DEFAULT_DEPTH]) (by decide)
    exact ⟨s', h, hlen⟩

end Fbc
